import Mathlib

/-!
Verification of the reactive two-field collection
(src/reactive_two_field_collection.h and its ordered-index variant,
the larger header in src/unnamed/part_000).

Shallow embedding conventions:
* C++ `double` fields are modelled as rationals, `long` fields as
  integers (the concrete scenarios use only dyadic values, where the
  two agree exactly).
* A reactive cell (reaction::Var) is modelled by its stored value; a
  call to `.value(v)` / `+=` on a total cell is a publication to its
  dependents (the cell substrate notifies synchronously on set).
* The id→record hash maps are modelled as association lists; iteration
  order of the hash map is never relied upon.
-/

set_option maxHeartbeats 1000000

namespace RTFC

/-- Aggregate mode, from `enum class AggMode { Add, Min, Max }`. -/
inductive AggMode where
  | Add
  | Min
  | Max
deriving DecidableEq, Repr

/-- Per-element record: the last-known snapshot of both fields
(`ElemRecord.lastElem1` / `lastElem2`).  The two reaction::Var cells are
represented by the snapshot itself, which equals their stored values at
every quiescent point. -/
structure ElemRec (E1 E2 : Type) where
  last1 : E1
  last2 : E2
deriving DecidableEq, Repr

/-!
## Add/Add-mode collection (reactive_two_field_collection.h)

Embeds `ReactiveTwoFieldCollection` with `Total1Mode = Total2Mode =
AggMode::Add` and the default `DefaultApplyAdd` apply functors (fast
path `total += delta`), no key index, no ordered index.
-/

/-- Configuration: the two delta functors `delta1_`, `delta2_` in source
argument order `(new1, new2, last1, last2)`, and the neutral values
`n1`, `n2` modelling the default-constructed `elem1_type{}`,
`elem2_type{}` used by `push_one`, `erase` and `clear`. -/
structure AddCfg (E1 E2 D1 D2 : Type) where
  d1 : E1 → E2 → E1 → E2 → D1
  d2 : E1 → E2 → E1 → E2 → D2
  n1 : E1
  n2 : E2

/-- Collection state: `elems_` as an association list, the two running
totals (`total1_`, `total2_` cells) and `nextId_`. -/
structure AddColl (E1 E2 D1 D2 : Type) where
  elems : List (Nat × ElemRec E1 E2)
  total1 : D1
  total2 : D2
  nextId : Nat
deriving DecidableEq, Repr

/-- Initial state built by the constructor: empty map, totals
default-initialised (`reaction::var(total1_type{})`), `nextId_ = 1`. -/
def AddColl.init {E1 E2 D1 D2 : Type} [Zero D1] [Zero D2] : AddColl E1 E2 D1 D2 :=
  ⟨[], 0, 0, 1⟩

/-- The public mutating operations on the Add-mode collection.
`update id e1 e2` models writing the element's field cells, which fires
its change monitor with the new current values of both fields. -/
inductive AddOp (E1 E2 : Type) where
  | push (e1 : E1) (e2 : E2)
  | update (id : Nat) (e1 : E1) (e2 : E2)
  | erase (id : Nat)
  | clear
deriving DecidableEq, Repr

variable {E1 E2 D1 D2 : Type}

/-- Map lookup (`elems_.find(id)`), on the association-list model. -/
def alookup {β : Type} (a : Nat) : List (Nat × β) → Option β
  | [] => none
  | (k, v) :: t => if k = a then some v else alookup a t

/-- Source push_one: allocate `id = nextId_++`, store the record with the
initial snapshot, apply the insert deltas computed from the neutral
state to the initial values (`delta_(e1, e2, elem1_type{}, elem2_type{})`).
Returns the new state and the issued id. -/
def pushOne [Add D1] [Add D2] (cfg : AddCfg E1 E2 D1 D2) (s : AddColl E1 E2 D1 D2)
    (e1 : E1) (e2 : E2) : AddColl E1 E2 D1 D2 × Nat :=
  (⟨s.elems ++ [(s.nextId, ⟨e1, e2⟩)],
    s.total1 + cfg.d1 e1 e2 cfg.n1 cfg.n2,
    s.total2 + cfg.d2 e1 e2 cfg.n1 cfg.n2,
    s.nextId + 1⟩, s.nextId)

/-- The element's change monitor (the reaction::action installed by
`push_one`): if the id is still live, compute the deltas from the last
snapshot to the new values, overwrite the snapshot, and apply. -/
def updateElem [Add D1] [Add D2] (cfg : AddCfg E1 E2 D1 D2) (s : AddColl E1 E2 D1 D2)
    (id : Nat) (e1 : E1) (e2 : E2) : AddColl E1 E2 D1 D2 :=
  match alookup id s.elems with
  | none => s
  | some r =>
    ⟨s.elems.map (fun p => if p.1 = id then (p.1, ⟨e1, e2⟩) else p),
     s.total1 + cfg.d1 e1 e2 r.last1 r.last2,
     s.total2 + cfg.d2 e1 e2 r.last1 r.last2,
     s.nextId⟩

/-- Source erase(id): no-op when absent; otherwise apply the removal deltas
`delta_(elem1_type{}, elem2_type{}, lastElem1, lastElem2)` and delete
the record. -/
def eraseElem [Add D1] [Add D2] (cfg : AddCfg E1 E2 D1 D2) (s : AddColl E1 E2 D1 D2)
    (id : Nat) : AddColl E1 E2 D1 D2 :=
  match alookup id s.elems with
  | none => s
  | some r =>
    ⟨s.elems.filter (fun p => p.1 != id),
     s.total1 + cfg.d1 cfg.n1 cfg.n2 r.last1 r.last2,
     s.total2 + cfg.d2 cfg.n1 cfg.n2 r.last1 r.last2,
     s.nextId⟩

/-- Source clear(): early return when empty; otherwise pre-sum the removal
deltas over all records, apply once, and drop every record.
`nextId_` is not reset. -/
def clearAll [AddMonoid D1] [AddMonoid D2] (cfg : AddCfg E1 E2 D1 D2) (s : AddColl E1 E2 D1 D2) :
    AddColl E1 E2 D1 D2 :=
  if s.elems.isEmpty then s
  else
    ⟨[],
     s.total1 + (s.elems.map (fun p => cfg.d1 cfg.n1 cfg.n2 p.2.last1 p.2.last2)).sum,
     s.total2 + (s.elems.map (fun p => cfg.d2 cfg.n1 cfg.n2 p.2.last1 p.2.last2)).sum,
     s.nextId⟩

/-- One public operation. -/
def stepAdd [AddMonoid D1] [AddMonoid D2] (cfg : AddCfg E1 E2 D1 D2) (s : AddColl E1 E2 D1 D2) :
    AddOp E1 E2 → AddColl E1 E2 D1 D2
  | .push e1 e2 => (pushOne cfg s e1 e2).1
  | .update id e1 e2 => updateElem cfg s id e1 e2
  | .erase id => eraseElem cfg s id
  | .clear => clearAll cfg s

/-- Run a sequence of operations from the freshly constructed state. -/
def runAdd [AddMonoid D1] [AddMonoid D2] (cfg : AddCfg E1 E2 D1 D2)
    (ops : List (AddOp E1 E2)) : AddColl E1 E2 D1 D2 :=
  ops.foldl (stepAdd cfg) AddColl.init

/-- One operation together with the list of ids it returns (only
`push_back` returns an id). -/
def stepIds [AddMonoid D1] [AddMonoid D2] (cfg : AddCfg E1 E2 D1 D2) (s : AddColl E1 E2 D1 D2) :
    AddOp E1 E2 → AddColl E1 E2 D1 D2 × List Nat
  | .push e1 e2 => ((pushOne cfg s e1 e2).1, [(pushOne cfg s e1 e2).2])
  | op => (stepAdd cfg s op, [])

/-- Run a sequence collecting, in order, every id issued by `push_back`. -/
def runIds [AddMonoid D1] [AddMonoid D2] (cfg : AddCfg E1 E2 D1 D2)
    (ops : List (AddOp E1 E2)) : AddColl E1 E2 D1 D2 × List Nat :=
  ops.foldl (fun acc op => ((stepIds cfg acc.1 op).1, acc.2 ++ (stepIds cfg acc.1 op).2))
    (AddColl.init, [])

/-- A delta functor is transition-additive when the contribution of a
composite transition is the sum of the contributions of its stages; this
is the coherence implied by the spec's reading of a delta as "the signed
contribution of a field transition". Argument order is the source's
`(new1, new2, last1, last2)`. -/
def Telescoping [Add D1] (d : E1 → E2 → E1 → E2 → D1) : Prop :=
  ∀ a1 a2 b1 b2 c1 c2, d b1 b2 a1 a2 + d c1 c2 b1 b2 = d c1 c2 a1 a2

/-- Independent recomputation of Total1: the sum of the configured delta
over all currently-live elements' neutral→current transitions. -/
def liveSum1 [AddCommMonoid D1] (cfg : AddCfg E1 E2 D1 D2) (s : AddColl E1 E2 D1 D2) : D1 :=
  (s.elems.map (fun p => cfg.d1 p.2.last1 p.2.last2 cfg.n1 cfg.n2)).sum

/-- Independent recomputation of Total2. -/
def liveSum2 [AddCommMonoid D2] (cfg : AddCfg E1 E2 D1 D2) (s : AddColl E1 E2 D1 D2) : D2 :=
  (s.elems.map (fun p => cfg.d2 p.2.last1 p.2.last2 cfg.n1 cfg.n2)).sum

/-! ### Association-list lemmas -/

theorem alookup_mem {β : Type} {l : List (Nat × β)} {a : Nat} {b : β}
    (h : alookup a l = some b) : (a, b) ∈ l := by
  induction l with
  | nil => simp [alookup] at h
  | cons p t ih =>
    obtain ⟨k, v⟩ := p
    by_cases hk : k = a
    · subst hk
      simp [alookup] at h
      simp [h]
    · simp [alookup, hk] at h
      exact List.mem_cons_of_mem _ (ih h)

theorem alookup_mem_keys {β : Type} {l : List (Nat × β)} {a : Nat} {b : β}
    (h : alookup a l = some b) : a ∈ l.map Prod.fst := by
  exact List.mem_map.mpr ⟨(a, b), alookup_mem h, rfl⟩

theorem alookup_eq_none {β : Type} {l : List (Nat × β)} {a : Nat}
    (h : a ∉ l.map Prod.fst) : alookup a l = none := by
  induction l with
  | nil => simp [alookup]
  | cons p t ih =>
    obtain ⟨k, v⟩ := p
    simp only [List.map_cons, List.mem_cons] at h
    push_neg at h
    have hka : ¬ k = a := fun hh => h.1 hh.symm
    simp [alookup, hka, ih h.2]

theorem map_update_of_not_mem {β : Type} {l : List (Nat × β)} {a : Nat} (r' : β)
    (h : a ∉ l.map Prod.fst) :
    l.map (fun p => if p.1 = a then (p.1, r') else p) = l := by
  induction l with
  | nil => rfl
  | cons p t ih =>
    obtain ⟨k, v⟩ := p
    simp only [List.map_cons, List.mem_cons] at h
    push_neg at h
    have hka : ¬ k = a := fun hh => h.1 hh.symm
    simp [hka, ih h.2]

theorem filter_ne_of_not_mem {β : Type} {l : List (Nat × β)} {a : Nat}
    (h : a ∉ l.map Prod.fst) :
    l.filter (fun p => p.1 != a) = l := by
  induction l with
  | nil => rfl
  | cons p t ih =>
    obtain ⟨k, v⟩ := p
    simp only [List.map_cons, List.mem_cons] at h
    push_neg at h
    have hka : ¬ k = a := fun hh => h.1 hh.symm
    simp [List.filter_cons, bne_iff_ne, hka, ih h.2]

theorem keys_map_update {β : Type} (l : List (Nat × β)) (a : Nat) (r' : β) :
    (l.map (fun p => if p.1 = a then (p.1, r') else p)).map Prod.fst = l.map Prod.fst := by
  induction l with
  | nil => rfl
  | cons p t ih =>
    by_cases hk : p.1 = a <;> simp [hk, ih]

/-- Sum of a projection over the association list after overwriting the
record at a live id (unique by key-nodup). -/
theorem sum_map_update {β D : Type} [AddCommGroup D] (f : β → D) {l : List (Nat × β)}
    {a : Nat} {r : β} (r' : β) (hnd : (l.map Prod.fst).Nodup) (h : alookup a l = some r) :
    ((l.map (fun p => if p.1 = a then (p.1, r') else p)).map (fun p => f p.2)).sum
      = (l.map (fun p => f p.2)).sum + f r' - f r := by
  induction l with
  | nil => simp [alookup] at h
  | cons p t ih =>
    obtain ⟨k, v⟩ := p
    simp only [List.map_cons, List.nodup_cons] at hnd
    by_cases hk : k = a
    · subst hk
      simp only [alookup, if_pos] at h
      have ht : (t.map (fun p => if p.1 = k then (p.1, r') else p)) = t :=
        map_update_of_not_mem r' (by simpa using hnd.1)
      obtain rfl : v = r := by injection h
      simp [ht]
      abel
    · simp only [alookup, if_neg hk] at h
      simp only [List.map_cons, List.sum_cons, if_neg hk, ih hnd.2 h]
      abel

/-- Sum of a projection over the association list after erasing a live id. -/
theorem sum_map_filter {β D : Type} [AddCommGroup D] (f : β → D) {l : List (Nat × β)}
    {a : Nat} {r : β} (hnd : (l.map Prod.fst).Nodup) (h : alookup a l = some r) :
    ((l.filter (fun p => p.1 != a)).map (fun p => f p.2)).sum
      = (l.map (fun p => f p.2)).sum - f r := by
  induction l with
  | nil => simp [alookup] at h
  | cons p t ih =>
    obtain ⟨k, v⟩ := p
    simp only [List.map_cons, List.nodup_cons] at hnd
    by_cases hk : k = a
    · subst hk
      simp only [alookup, if_pos] at h
      have ht : (t.filter (fun p => p.1 != k)) = t :=
        filter_ne_of_not_mem (by simpa using hnd.1)
      obtain rfl : v = r := by injection h
      simp [List.filter_cons, ht]
    · simp only [alookup, if_neg hk] at h
      have hb : ((k, v).1 != a) = true := by simpa using hk
      simp only [List.filter_cons, hb, if_pos, List.map_cons, List.sum_cons, ih hnd.2 h]
      abel

theorem sum_map_cancel {α D : Type} [AddCommGroup D] (f g : α → D) (l : List α)
    (h : ∀ x ∈ l, f x + g x = 0) :
    (l.map f).sum + (l.map g).sum = 0 := by
  induction l with
  | nil => simp
  | cons x t ih =>
    have hx := h x (List.mem_cons_self x t)
    have ht := ih (fun y hy => h y (List.mem_cons_of_mem _ hy))
    simp only [List.map_cons, List.sum_cons]
    calc f x + (t.map f).sum + (g x + (t.map g).sum)
        = (f x + g x) + ((t.map f).sum + (t.map g).sum) := by abel
      _ = 0 := by rw [hx, ht, add_zero]

/-! ### The Add-mode invariant (claim C1) -/

/-- Telescoping deltas vanish on the identity transition. -/
theorem Telescoping.self_eq_zero [AddCommGroup D1] {d : E1 → E2 → E1 → E2 → D1}
    (h : Telescoping d) (a1 : E1) (a2 : E2) : d a1 a2 a1 a2 = 0 := by
  have := h a1 a2 a1 a2 a1 a2
  exact add_right_cancel (by rw [this]; abel)

/-- Telescoping deltas are antisymmetric under transition reversal. -/
theorem Telescoping.reverse_eq_neg [AddCommGroup D1] {d : E1 → E2 → E1 → E2 → D1}
    (h : Telescoping d) (a1 : E1) (a2 : E2) (b1 : E1) (b2 : E2) :
    d a1 a2 b1 b2 = -d b1 b2 a1 a2 := by
  have := h a1 a2 b1 b2 a1 a2
  rw [h.self_eq_zero a1 a2] at this
  exact eq_neg_of_add_eq_zero_right this

/-- Invariant of the Add-mode collection: live ids are distinct and below
`nextId_`, and both totals agree with independent recomputation. -/
structure AddInv [AddCommGroup D1] [AddCommGroup D2] (cfg : AddCfg E1 E2 D1 D2)
    (s : AddColl E1 E2 D1 D2) : Prop where
  keysNodup : (s.elems.map Prod.fst).Nodup
  keysBound : ∀ i ∈ s.elems.map Prod.fst, i < s.nextId
  totalOne : s.total1 = liveSum1 cfg s
  totalTwo : s.total2 = liveSum2 cfg s

theorem stepAdd_inv [AddCommGroup D1] [AddCommGroup D2] {cfg : AddCfg E1 E2 D1 D2}
    (h1 : Telescoping cfg.d1) (h2 : Telescoping cfg.d2)
    {s : AddColl E1 E2 D1 D2} (hs : AddInv cfg s) (op : AddOp E1 E2) :
    AddInv cfg (stepAdd cfg s op) := by
  cases op with
  | push e1 e2 =>
    have hnotMem : s.nextId ∉ s.elems.map Prod.fst :=
      fun hmem => lt_irrefl _ (hs.keysBound _ hmem)
    refine ⟨?_, ?_, ?_, ?_⟩
    · simpa [stepAdd, pushOne, List.nodup_append, hnotMem] using hs.keysNodup
    · intro i hi
      simp only [stepAdd, pushOne, List.map_append, List.mem_append] at hi ⊢
      rcases hi with hi | hi
      · exact Nat.lt_succ_of_lt (hs.keysBound _ hi)
      · simp at hi
        simp [hi]
    · simp [stepAdd, pushOne, liveSum1, hs.totalOne]
    · simp [stepAdd, pushOne, liveSum2, hs.totalTwo]
  | update id e1 e2 =>
    simp only [stepAdd, updateElem]
    cases halook : alookup id s.elems with
    | none => exact hs
    | some r =>
      refine ⟨?_, ?_, ?_, ?_⟩
      · rw [keys_map_update]
        exact hs.keysNodup
      · intro i hi
        rw [keys_map_update] at hi
        exact hs.keysBound _ hi
      · have hsum := sum_map_update
          (fun rec : ElemRec E1 E2 => cfg.d1 rec.last1 rec.last2 cfg.n1 cfg.n2)
          (⟨e1, e2⟩ : ElemRec E1 E2) hs.keysNodup halook
        simp only [liveSum1]
        simp only [hsum, hs.totalOne, liveSum1]
        have hstep := h1 cfg.n1 cfg.n2 r.last1 r.last2 e1 e2
        have hd : cfg.d1 e1 e2 r.last1 r.last2
            = cfg.d1 e1 e2 cfg.n1 cfg.n2 - cfg.d1 r.last1 r.last2 cfg.n1 cfg.n2 := by
          rw [← hstep]; abel
        rw [hd]
        abel
      · have hsum := sum_map_update
          (fun rec : ElemRec E1 E2 => cfg.d2 rec.last1 rec.last2 cfg.n1 cfg.n2)
          (⟨e1, e2⟩ : ElemRec E1 E2) hs.keysNodup halook
        simp only [liveSum2]
        simp only [hsum, hs.totalTwo, liveSum2]
        have hstep := h2 cfg.n1 cfg.n2 r.last1 r.last2 e1 e2
        have hd : cfg.d2 e1 e2 r.last1 r.last2
            = cfg.d2 e1 e2 cfg.n1 cfg.n2 - cfg.d2 r.last1 r.last2 cfg.n1 cfg.n2 := by
          rw [← hstep]; abel
        rw [hd]
        abel
  | erase id =>
    simp only [stepAdd, eraseElem]
    cases halook : alookup id s.elems with
    | none => exact hs
    | some r =>
      refine ⟨?_, ?_, ?_, ?_⟩
      · exact ((List.filter_sublist _).map Prod.fst).nodup hs.keysNodup
      · intro i hi
        simp only [List.mem_map] at hi
        obtain ⟨p, hp, rfl⟩ := hi
        exact hs.keysBound _ (List.mem_map.mpr ⟨p, (List.filter_sublist _).mem hp, rfl⟩)
      · have hsum := sum_map_filter
          (fun rec : ElemRec E1 E2 => cfg.d1 rec.last1 rec.last2 cfg.n1 cfg.n2)
          hs.keysNodup halook
        simp only [liveSum1]
        simp only [hsum, hs.totalOne, liveSum1]
        have hd : cfg.d1 cfg.n1 cfg.n2 r.last1 r.last2
            = -cfg.d1 r.last1 r.last2 cfg.n1 cfg.n2 :=
          h1.reverse_eq_neg cfg.n1 cfg.n2 r.last1 r.last2
        rw [hd]
        abel
      · have hsum := sum_map_filter
          (fun rec : ElemRec E1 E2 => cfg.d2 rec.last1 rec.last2 cfg.n1 cfg.n2)
          hs.keysNodup halook
        simp only [liveSum2]
        simp only [hsum, hs.totalTwo, liveSum2]
        have hd : cfg.d2 cfg.n1 cfg.n2 r.last1 r.last2
            = -cfg.d2 r.last1 r.last2 cfg.n1 cfg.n2 :=
          h2.reverse_eq_neg cfg.n1 cfg.n2 r.last1 r.last2
        rw [hd]
        abel
  | clear =>
    simp only [stepAdd, clearAll]
    split
    · exact hs
    · refine ⟨by simp, by simp, ?_, ?_⟩
      · simp only [liveSum1, List.map_nil, List.sum_nil, hs.totalOne]
        have hc := sum_map_cancel
          (fun p : Nat × ElemRec E1 E2 => cfg.d1 p.2.last1 p.2.last2 cfg.n1 cfg.n2)
          (fun p : Nat × ElemRec E1 E2 => cfg.d1 cfg.n1 cfg.n2 p.2.last1 p.2.last2)
          s.elems
          (fun x _ => by
            show cfg.d1 x.2.last1 x.2.last2 cfg.n1 cfg.n2
                + cfg.d1 cfg.n1 cfg.n2 x.2.last1 x.2.last2 = 0
            rw [h1.reverse_eq_neg cfg.n1 cfg.n2 x.2.last1 x.2.last2]
            abel)
        simpa [liveSum1] using hc
      · simp only [liveSum2, List.map_nil, List.sum_nil, hs.totalTwo]
        have hc := sum_map_cancel
          (fun p : Nat × ElemRec E1 E2 => cfg.d2 p.2.last1 p.2.last2 cfg.n1 cfg.n2)
          (fun p : Nat × ElemRec E1 E2 => cfg.d2 cfg.n1 cfg.n2 p.2.last1 p.2.last2)
          s.elems
          (fun x _ => by
            show cfg.d2 x.2.last1 x.2.last2 cfg.n1 cfg.n2
                + cfg.d2 cfg.n1 cfg.n2 x.2.last1 x.2.last2 = 0
            rw [h2.reverse_eq_neg cfg.n1 cfg.n2 x.2.last1 x.2.last2]
            abel)
        simpa [liveSum2] using hc

theorem runAdd_inv [AddCommGroup D1] [AddCommGroup D2] {cfg : AddCfg E1 E2 D1 D2}
    (h1 : Telescoping cfg.d1) (h2 : Telescoping cfg.d2) (ops : List (AddOp E1 E2)) :
    AddInv cfg (runAdd cfg ops) := by
  have step : ∀ (s : AddColl E1 E2 D1 D2), AddInv cfg s →
      AddInv cfg (ops.foldl (stepAdd cfg) s) := by
    induction ops with
    | nil => exact fun s hs => hs
    | cons op t ih => exact fun s hs => ih _ (stepAdd_inv h1 h2 hs op)
  exact step _ ⟨by simp [AddColl.init], by simp [AddColl.init],
    by simp [AddColl.init, liveSum1], by simp [AddColl.init, liveSum2]⟩

/-- C1: in Add mode, after every sequence of push_back, field updates and
erase operations, each Total (total1() and total2()) equals the sum, over
all currently-live elements, of the configured delta function evaluated
over the element's transitions from the neutral default-constructed state
to its current snapshot (independent recomputation), the delta functions
being transition-additive as the spec's delta contract implies. -/
theorem c1_totals_equal_live_delta_sums [AddCommGroup D1] [AddCommGroup D2]
    (cfg : AddCfg E1 E2 D1 D2) (h1 : Telescoping cfg.d1) (h2 : Telescoping cfg.d2)
    (ops : List (AddOp E1 E2)) :
    (runAdd cfg ops).total1 = liveSum1 cfg (runAdd cfg ops)
      ∧ (runAdd cfg ops).total2 = liveSum2 cfg (runAdd cfg ops) :=
  ⟨(runAdd_inv h1 h2 ops).totalOne, (runAdd_inv h1 h2 ops).totalTwo⟩

/-- detail::DefaultDelta1 at the default instantiation Elem1T = double,
Elem2T = long, Total1T = long: `new2 - last2`. -/
def defaultDelta1 (_new1 : ℚ) (new2 : ℤ) (_last1 : ℚ) (last2 : ℤ) : ℤ :=
  new2 - last2

/-- detail::DefaultDelta2 at Total2T = double: `new2*new1 - last2*last1`. -/
def defaultDelta2 (new1 : ℚ) (new2 : ℤ) (last1 : ℚ) (last2 : ℤ) : ℚ :=
  (new2 : ℚ) * new1 - (last2 : ℚ) * last1

/-- The default template configuration, with default-constructed neutral
field values. -/
def defaultCfg : AddCfg ℚ ℤ ℤ ℚ :=
  ⟨defaultDelta1, defaultDelta2, 0, 0⟩

theorem defaultDelta1_telescoping : Telescoping defaultCfg.d1 := by
  intro a1 a2 b1 b2 c1 c2
  show (b2 - a2) + (c2 - b2) = c2 - a2
  ring

theorem defaultDelta2_telescoping : Telescoping defaultCfg.d2 := by
  intro a1 a2 b1 b2 c1 c2
  show ((b2 : ℚ) * b1 - (a2 : ℚ) * a1) + ((c2 : ℚ) * c1 - (b2 : ℚ) * b1)
    = (c2 : ℚ) * c1 - (a2 : ℚ) * a1
  ring

/-- Witness for C1: the default deltas are transition-additive and the
theorem applies to a concrete insert/update/erase sequence. -/
theorem c1_totals_equal_live_delta_sums_witness :
    (runAdd defaultCfg [AddOp.push (3/2) 10, AddOp.update 1 (3/2) 30, AddOp.erase 1]).total1
        = liveSum1 defaultCfg
            (runAdd defaultCfg [AddOp.push (3/2) 10, AddOp.update 1 (3/2) 30, AddOp.erase 1])
      ∧ (runAdd defaultCfg [AddOp.push (3/2) 10, AddOp.update 1 (3/2) 30, AddOp.erase 1]).total2
        = liveSum2 defaultCfg
            (runAdd defaultCfg [AddOp.push (3/2) 10, AddOp.update 1 (3/2) 30, AddOp.erase 1]) :=
  c1_totals_equal_live_delta_sums defaultCfg
    defaultDelta1_telescoping defaultDelta2_telescoping _

/-- The three stages of the spec's concrete default-delta scenario. -/
def c3stage1 : List (AddOp ℚ ℤ) :=
  [AddOp.push (3/2) 10, AddOp.push 2 20, AddOp.push (1/2) 15]

def c3stage2 : List (AddOp ℚ ℤ) :=
  c3stage1 ++ [AddOp.update 1 (3/2) 30]

def c3stage3 : List (AddOp ℚ ℤ) :=
  c3stage2 ++ [AddOp.erase 1]

/-- C3: with the default deltas, inserting (1.5,10), (2.0,20), (0.5,15)
gives total1() = 45, total2() = 62.5; updating the first element's field2
from 10 to 30 gives 65 and 92.5; erasing the first element gives 35
and 47.5. -/
theorem c3_default_delta_scenario :
    (runAdd defaultCfg c3stage1).total1 = 45 ∧ (runAdd defaultCfg c3stage1).total2 = 125/2
    ∧ (runAdd defaultCfg c3stage2).total1 = 65 ∧ (runAdd defaultCfg c3stage2).total2 = 185/2
    ∧ (runAdd defaultCfg c3stage3).total1 = 35 ∧ (runAdd defaultCfg c3stage3).total2 = 95/2 := by
  norm_num [c3stage1, c3stage2, c3stage3, runAdd, stepAdd, pushOne, updateElem,
    eraseElem, alookup, defaultCfg, defaultDelta1, defaultDelta2, AddColl.init]

theorem updateElem_nextId [AddMonoid D1] [AddMonoid D2] (cfg : AddCfg E1 E2 D1 D2)
    (s : AddColl E1 E2 D1 D2) (id : Nat) (e1 : E1) (e2 : E2) :
    (updateElem cfg s id e1 e2).nextId = s.nextId := by
  unfold updateElem
  cases alookup id s.elems <;> rfl

theorem eraseElem_nextId [AddMonoid D1] [AddMonoid D2] (cfg : AddCfg E1 E2 D1 D2)
    (s : AddColl E1 E2 D1 D2) (id : Nat) :
    (eraseElem cfg s id).nextId = s.nextId := by
  unfold eraseElem
  cases alookup id s.elems <;> rfl

theorem clearAll_nextId [AddMonoid D1] [AddMonoid D2] (cfg : AddCfg E1 E2 D1 D2)
    (s : AddColl E1 E2 D1 D2) :
    (clearAll cfg s).nextId = s.nextId := by
  unfold clearAll
  split <;> rfl

theorem runIds_aux [AddMonoid D1] [AddMonoid D2] (cfg : AddCfg E1 E2 D1 D2)
    (ops : List (AddOp E1 E2)) :
    ∀ (s : AddColl E1 E2 D1 D2) (acc : List Nat), acc.Pairwise (· < ·) →
      (∀ i ∈ acc, i < s.nextId) →
      ((ops.foldl (fun acc op => ((stepIds cfg acc.1 op).1, acc.2 ++ (stepIds cfg acc.1 op).2))
          (s, acc)).2.Pairwise (· < ·)
       ∧ ∀ i ∈ (ops.foldl
            (fun acc op => ((stepIds cfg acc.1 op).1, acc.2 ++ (stepIds cfg acc.1 op).2))
            (s, acc)).2,
          i < (ops.foldl
            (fun acc op => ((stepIds cfg acc.1 op).1, acc.2 ++ (stepIds cfg acc.1 op).2))
            (s, acc)).1.nextId) := by
  induction ops with
  | nil => exact fun s acc h1 h2 => ⟨h1, h2⟩
  | cons op t ih =>
    intro s acc h1 h2
    simp only [List.foldl_cons]
    cases op with
    | push e1 e2 =>
      apply ih
      · simp only [stepIds, pushOne]
        rw [List.pairwise_append]
        refine ⟨h1, List.pairwise_singleton _ _, ?_⟩
        intro i hi j hj
        simp only [List.mem_singleton] at hj
        subst hj
        exact h2 i hi
      · intro i hi
        simp only [stepIds, pushOne, List.mem_append, List.mem_singleton] at hi
        simp only [stepIds, pushOne]
        rcases hi with hi | rfl
        · exact Nat.lt_succ_of_lt (h2 i hi)
        · exact Nat.lt_succ_self _
    | update id e1 e2 =>
      refine ih _ _ (by simpa [stepIds] using h1) ?_
      intro i hi
      simp only [stepIds, List.append_nil] at hi
      simp only [stepIds, stepAdd]
      rw [updateElem_nextId]
      exact h2 i hi
    | erase id =>
      refine ih _ _ (by simpa [stepIds] using h1) ?_
      intro i hi
      simp only [stepIds, List.append_nil] at hi
      simp only [stepIds, stepAdd]
      rw [eraseElem_nextId]
      exact h2 i hi
    | clear =>
      refine ih _ _ (by simpa [stepIds] using h1) ?_
      intro i hi
      simp only [stepIds, List.append_nil] at hi
      simp only [stepIds, stepAdd]
      rw [clearAll_nextId]
      exact h2 i hi

/-- C9: the ids issued by push_back across any operation sequence form a
strictly increasing list (hence are never reused), and one further
push_back after any sequence including erases and clears issues exactly
the current nextId_, strictly greater than every id ever issued. -/
theorem c9_ids_strictly_increasing_never_reused [AddCommGroup D1] [AddCommGroup D2]
    (cfg : AddCfg E1 E2 D1 D2) (ops : List (AddOp E1 E2)) (e1 : E1) (e2 : E2) :
    (runIds cfg ops).2.Pairwise (· < ·)
    ∧ (runIds cfg (ops ++ [AddOp.push e1 e2])).2
        = (runIds cfg ops).2 ++ [(runIds cfg ops).1.nextId]
    ∧ ∀ i ∈ (runIds cfg ops).2, i < (runIds cfg ops).1.nextId := by
  have haux := runIds_aux cfg ops AddColl.init [] List.Pairwise.nil (by simp)
  refine ⟨haux.1, ?_, haux.2⟩
  simp only [runIds, List.foldl_append, List.foldl_cons, List.foldl_nil]
  rfl

/-!
## Min/Max-mode collection (count-map order statistics)

Embeds `ReactiveTwoFieldCollection` with both totals in an index mode
(`Total1Mode`, `Total2Mode` ∈ {Min, Max}): the `idx1_`/`idx2_`
count-maps (`std::map<value, count>`) are modelled by the multiset of
their keys with multiplicity, so `insert_index*` is insertion,
`erase_one_index*` removes one occurrence (a no-op when absent, matching
the `find != end` guard), and `top_index*` reads the least/greatest key.
The two publish flags of a step record whether `total1_.value(...)` /
`total2_.value(...)` was invoked, i.e. whether the Total cell notified
its dependents.
-/

/-- Configuration of the index-mode collection: extractors, per-total
modes, the neutral sentinels (default-constructed `total_type{}`) and
the `combined_atomic_` flag. -/
structure MMCfg (E1 E2 T1 T2 : Type) where
  extract1 : E1 → E2 → T1
  extract2 : E1 → E2 → T2
  mode1 : AggMode
  mode2 : AggMode
  sent1 : T1
  sent2 : T2
  combined : Bool

/-- State: `elems_`, the two count-maps (as multisets of extracted
values), the two Total cells and `nextId_`. -/
structure MMColl (E1 E2 T1 T2 : Type) where
  elems : List (Nat × ElemRec E1 E2)
  idx1 : List T1
  idx2 : List T2
  total1 : T1
  total2 : T2
  nextId : Nat
deriving DecidableEq, Repr

/-- Source top_index helpers: none when the count-map is empty (or in Add mode, as
in the part_000 guard); otherwise the minimum/maximum key. -/
def topIdx {T : Type} [LinearOrder T] (mode : AggMode) (l : List T) : Option T :=
  match mode with
  | AggMode.Add => none
  | AggMode.Min => l.min?
  | AggMode.Max => l.max?

/-- Count-map update of one apply_pair call: erase one occurrence of the
old extracted value (if provided), then insert the new one (if provided),
in that source order. -/
def updIdx {T : Type} [DecidableEq T] (idx : List T) (oldv newv : Option T) : List T :=
  let a := match oldv with
    | some v => idx.erase v
    | none => idx
  match newv with
  | some v => v :: a
  | none => a

variable {T1 T2 : Type}

/-- Source apply_pair restricted to the index-mode branches (the delta
arguments are ignored there): update both count-maps, set each Total to
the current extreme or the sentinel.  Non-combined path: the Total cell
is written unconditionally.  Combined-atomic path: each Total cell is
written only when the new value differs from the prior one.  Returns the
new state and the two publish flags. -/
def applyPairMM [LinearOrder T1] [LinearOrder T2] (cfg : MMCfg E1 E2 T1 T2)
    (s : MMColl E1 E2 T1 T2) (old1 new1 : Option T1) (old2 new2 : Option T2) :
    MMColl E1 E2 T1 T2 × Bool × Bool :=
  let i1 := updIdx s.idx1 old1 new1
  let i2 := updIdx s.idx2 old2 new2
  let t1 := (topIdx cfg.mode1 i1).getD cfg.sent1
  let t2 := (topIdx cfg.mode2 i2).getD cfg.sent2
  if cfg.combined then
    ({ s with idx1 := i1, idx2 := i2, total1 := t1, total2 := t2 },
      decide (s.total1 ≠ t1), decide (s.total2 ≠ t2))
  else
    ({ s with idx1 := i1, idx2 := i2, total1 := t1, total2 := t2 }, true, true)

/-- One public operation of the index-mode collection, with its publish
flags.  push_one provides only new extracted values, the change monitor
provides old and new, erase provides only old, and clear provides none
(its precomputed removal deltas are ignored by the index branches). -/
def stepMM [LinearOrder T1] [LinearOrder T2] (cfg : MMCfg E1 E2 T1 T2)
    (s : MMColl E1 E2 T1 T2) : AddOp E1 E2 → MMColl E1 E2 T1 T2 × Bool × Bool
  | .push e1 e2 =>
    let s1 : MMColl E1 E2 T1 T2 :=
      { s with elems := s.elems ++ [(s.nextId, ⟨e1, e2⟩)], nextId := s.nextId + 1 }
    applyPairMM cfg s1 none (some (cfg.extract1 e1 e2)) none (some (cfg.extract2 e1 e2))
  | .update id e1 e2 =>
    match alookup id s.elems with
    | none => (s, false, false)
    | some r =>
      let s1 : MMColl E1 E2 T1 T2 :=
        { s with elems := s.elems.map (fun p => if p.1 = id then (p.1, ⟨e1, e2⟩) else p) }
      applyPairMM cfg s1 (some (cfg.extract1 r.last1 r.last2)) (some (cfg.extract1 e1 e2))
        (some (cfg.extract2 r.last1 r.last2)) (some (cfg.extract2 e1 e2))
  | .erase id =>
    match alookup id s.elems with
    | none => (s, false, false)
    | some r =>
      let s1 : MMColl E1 E2 T1 T2 :=
        { s with elems := s.elems.filter (fun p => p.1 != id) }
      applyPairMM cfg s1 (some (cfg.extract1 r.last1 r.last2)) none
        (some (cfg.extract2 r.last1 r.last2)) none
  | .clear =>
    if s.elems.isEmpty then (s, false, false)
    else
      let s1 : MMColl E1 E2 T1 T2 := { s with elems := [] }
      applyPairMM cfg s1 none none none none

/-- Freshly constructed state: totals default-initialised (equal to the
neutral sentinel), empty count-maps, `nextId_ = 1`. -/
def MMColl.init (cfg : MMCfg E1 E2 T1 T2) : MMColl E1 E2 T1 T2 :=
  ⟨[], [], [], cfg.sent1, cfg.sent2, 1⟩

/-- Run a sequence of operations on the index-mode collection. -/
def runMM [LinearOrder T1] [LinearOrder T2] (cfg : MMCfg E1 E2 T1 T2)
    (ops : List (AddOp E1 E2)) : MMColl E1 E2 T1 T2 :=
  ops.foldl (fun s op => (stepMM cfg s op).1) (MMColl.init cfg)

/-- A concrete index-mode configuration: Total1Mode = Min with the
default extractor (field2), Total2Mode = Max with the default product
extractor, non-combined publication, integer fields. -/
def mmCfg : MMCfg ℤ ℤ ℤ ℤ :=
  ⟨fun _ e2 => e2, fun e1 e2 => e1 * e2, AggMode.Min, AggMode.Max, 0, 0, false⟩

/-- C2: `clear()` passes no extractor values to apply_pair, so the
count-maps are never purged: after push_back(1,5) then clear() the
collection is empty yet total1() is still 5 (not the neutral sentinel 0)
and the count-map still holds the value 5; a further push_back(1,7)
then reports total1() = 5 although the only live extracted value is 7.
This contradicts the claimed invariant at the empty collection. -/
theorem c2_clear_leaves_stale_minmax_totals :
    (runMM mmCfg [AddOp.push 1 5, AddOp.clear]).elems = []
    ∧ (runMM mmCfg [AddOp.push 1 5, AddOp.clear]).total1 = 5
    ∧ (runMM mmCfg [AddOp.push 1 5, AddOp.clear]).idx1 = [5]
    ∧ (runMM mmCfg [AddOp.push 1 5, AddOp.clear, AddOp.push 1 7]).total1 = 5
    ∧ (runMM mmCfg [AddOp.push 1 5, AddOp.clear, AddOp.push 1 7]).elems
        = [(2, ⟨1, 7⟩)] := by
  decide

/-- C7 (counterexample): in the non-combined path, a triggering event
that does not change the extreme still publishes the Total: after
push_back(1,5) (total1() = 5, the Min extreme), a second insertion with
the same extracted value 5 leaves the extreme at 5 yet the step reports
the Total1 cell as written. -/
theorem c7_noncombined_publishes_unchanged_total :
    (runMM mmCfg [AddOp.push 1 5]).total1 = 5
    ∧ (stepMM mmCfg (runMM mmCfg [AddOp.push 1 5]) (AddOp.push 2 5)).2.1 = true
    ∧ (stepMM mmCfg (runMM mmCfg [AddOp.push 1 5]) (AddOp.push 2 5)).1.total1 = 5 := by
  decide

/-- C7 (amended): after every triggering event the Total is set to the
order-statistic structure's current extreme, or to the neutral sentinel
when the structure is empty; in combined-atomic mode it is published
exactly when that value differs from the Total's prior value, while in
non-combined mode the Total cell is written (hence published) on every
triggering event, even when the extreme is unchanged. -/
theorem c7_minmax_publish_discipline [LinearOrder T1] [LinearOrder T2]
    (cfg : MMCfg E1 E2 T1 T2) (s : MMColl E1 E2 T1 T2)
    (old1 new1 : Option T1) (old2 new2 : Option T2) :
    (applyPairMM cfg s old1 new1 old2 new2).1.total1
        = (topIdx cfg.mode1 (updIdx s.idx1 old1 new1)).getD cfg.sent1
    ∧ (applyPairMM cfg s old1 new1 old2 new2).1.total2
        = (topIdx cfg.mode2 (updIdx s.idx2 old2 new2)).getD cfg.sent2
    ∧ (applyPairMM cfg s old1 new1 old2 new2).2.1
        = (if cfg.combined
            then decide (s.total1 ≠ (applyPairMM cfg s old1 new1 old2 new2).1.total1)
            else true)
    ∧ (applyPairMM cfg s old1 new1 old2 new2).2.2
        = (if cfg.combined
            then decide (s.total2 ≠ (applyPairMM cfg s old1 new1 old2 new2).1.total2)
            else true) := by
  unfold applyPairMM
  cases hc : cfg.combined <;> simp

/-!
## Keyed collection with ordered secondary index (src/unnamed/part_000)

Embeds the `MaintainOrderedIndex = true`, keyed (`KeyT ≠ void`),
Add/Add-totals instantiation.  The `std::set<id_type, IdComparator>`
is modelled by its in-order id sequence: `insert` places an id at its
sorted position, `erase(id)` removes the (unique, under the derived
strict total order) element the comparator finds equivalent to the
probe.  The `std::unordered_map` key index keeps emplace semantics
(insert only when the key is absent).
-/

/-- Per-element record of the keyed collection: snapshot plus the
immutable key. -/
structure KElemRec (E1 E2 K : Type) where
  last1 : E1
  last2 : E2
  key : K
deriving DecidableEq, Repr

instance {E1 E2 K : Type} [Inhabited E1] [Inhabited E2] [Inhabited K] :
    Inhabited (KElemRec E1 E2 K) :=
  ⟨⟨default, default, default⟩⟩

/-- Configuration: Add-mode delta functors with their neutral values,
and the runtime comparator `cmp_` (compare_fn_t). -/
structure RCfg (E1 E2 K D1 D2 : Type) where
  d1 : E1 → E2 → E1 → E2 → D1
  d2 : E1 → E2 → E1 → E2 → D2
  n1 : E1
  n2 : E2
  cmp : E1 → E2 → E1 → E2 → Bool

/-- State: `elems_`, `key_index_`, the in-order sequence of the ordered
index, the two totals and `nextId_`. -/
structure RColl (E1 E2 K D1 D2 : Type) where
  elems : List (Nat × KElemRec E1 E2 K)
  keyIndex : List (K × Nat)
  ordered : List Nat
  total1 : D1
  total2 : D2
  nextId : Nat
deriving DecidableEq, Repr

variable {K : Type}

/-- The snapshot `elems_.at(a)` read by IdComparator (defaulted when the
id is dead; the maintained invariant keeps every compared id live). -/
def snap [Inhabited E1] [Inhabited E2] [Inhabited K]
    (elems : List (Nat × KElemRec E1 E2 K)) (a : Nat) : KElemRec E1 E2 K :=
  (alookup a elems).getD default

/-- IdComparator: equal ids compare false; otherwise the runtime
comparator decides on the two snapshots, with ties broken by ascending
id. -/
def idLt [Inhabited E1] [Inhabited E2] [Inhabited K]
    (cmp : E1 → E2 → E1 → E2 → Bool) (elems : List (Nat × KElemRec E1 E2 K))
    (a b : Nat) : Bool :=
  if a = b then false
  else if cmp (snap elems a).last1 (snap elems a).last2
      (snap elems b).last1 (snap elems b).last2 then true
  else if cmp (snap elems b).last1 (snap elems b).last2
      (snap elems a).last1 (snap elems a).last2 then false
  else decide (a < b)

/-- Set insertion (ordered_index_->insert) on the in-order sequence: place the id
before the first present element it compares less than. -/
def insertOrdered (lt : Nat → Nat → Bool) (id : Nat) : List Nat → List Nat
  | [] => [id]
  | x :: xs => if lt id x then id :: x :: xs else x :: insertOrdered lt id xs

/-- Set erase (ordered_index_->erase) on the in-order sequence: remove the (at
most one, under a strict total order) element the comparator considers
equivalent to the probe id. -/
def eraseOrdered (lt : Nat → Nat → Bool) (id : Nat) : List Nat → List Nat
  | [] => []
  | x :: xs => if !lt x id && !lt id x then xs else x :: eraseOrdered lt id xs

/-- Key-index lookup (key_index_.find). -/
def klookup [DecidableEq K] (k : K) : List (K × Nat) → Option Nat
  | [] => none
  | (k2, v) :: t => if k2 = k then some v else klookup k t

/-- Key-index emplace (key_index_.emplace): inserts only when the key is absent. -/
def emplaceKey [DecidableEq K] (ki : List (K × Nat)) (k : K) (id : Nat) :
    List (K × Nat) :=
  match klookup k ki with
  | some _ => ki
  | none => ki ++ [(k, id)]

/-- Key-index erase (key_index_.erase). -/
def eraseKeyEntry [DecidableEq K] (ki : List (K × Nat)) (k : K) : List (K × Nat) :=
  ki.filter (fun p => decide (p.1 ≠ k))

variable [Inhabited E1] [Inhabited E2] [Inhabited K] [DecidableEq K]

/-- Source push_one(e1, e2, key): allocate the id, store the record, emplace
into the key index, insert into the ordered index (the comparator sees
the just-stored snapshot), apply the insert deltas. -/
def rPush [Add D1] [Add D2] (cfg : RCfg E1 E2 K D1 D2) (s : RColl E1 E2 K D1 D2)
    (e1 : E1) (e2 : E2) (k : K) : RColl E1 E2 K D1 D2 × Nat :=
  let id := s.nextId
  let elems2 := s.elems ++ [(id, ⟨e1, e2, k⟩)]
  (⟨elems2,
    emplaceKey s.keyIndex k id,
    insertOrdered (idLt cfg.cmp elems2) id s.ordered,
    s.total1 + cfg.d1 e1 e2 cfg.n1 cfg.n2,
    s.total2 + cfg.d2 e1 e2 cfg.n1 cfg.n2,
    id + 1⟩, id)

/-- The change monitor with the ordered index enabled: when the new
snapshot is comparator-equivalent to the old one no index operation
occurs; otherwise the id is removed (compared against the pre-update
snapshots), the snapshot is overwritten, and the id is reinserted.
The Add-mode deltas are applied from the old snapshot. -/
def rUpdate [Add D1] [Add D2] (cfg : RCfg E1 E2 K D1 D2) (s : RColl E1 E2 K D1 D2)
    (id : Nat) (e1 : E1) (e2 : E2) : RColl E1 E2 K D1 D2 :=
  match alookup id s.elems with
  | none => s
  | some r =>
    let equiv := !cfg.cmp r.last1 r.last2 e1 e2 && !cfg.cmp e1 e2 r.last1 r.last2
    let ordered1 := if equiv then s.ordered else eraseOrdered (idLt cfg.cmp s.elems) id s.ordered
    let elems2 := s.elems.map (fun p => if p.1 = id then (p.1, ⟨e1, e2, r.key⟩) else p)
    let ordered2 := if equiv then ordered1 else insertOrdered (idLt cfg.cmp elems2) id ordered1
    ⟨elems2, s.keyIndex, ordered2,
     s.total1 + cfg.d1 e1 e2 r.last1 r.last2,
     s.total2 + cfg.d2 e1 e2 r.last1 r.last2,
     s.nextId⟩

/-- Source erase(id): no-op when absent; otherwise remove from the ordered
index while the record is still live, apply the removal deltas, erase
the key-index entry for the record's key, and delete the record. -/
def rErase [Add D1] [Add D2] (cfg : RCfg E1 E2 K D1 D2) (s : RColl E1 E2 K D1 D2)
    (id : Nat) : RColl E1 E2 K D1 D2 :=
  match alookup id s.elems with
  | none => s
  | some r =>
    ⟨s.elems.filter (fun p => p.1 != id),
     eraseKeyEntry s.keyIndex r.key,
     eraseOrdered (idLt cfg.cmp s.elems) id s.ordered,
     s.total1 + cfg.d1 cfg.n1 cfg.n2 r.last1 r.last2,
     s.total2 + cfg.d2 cfg.n1 cfg.n2 r.last1 r.last2,
     s.nextId⟩

/-- Source erase_by_key(k): no-op when the key is absent, otherwise erase the
mapped id. -/
def rEraseByKey [Add D1] [Add D2] (cfg : RCfg E1 E2 K D1 D2)
    (s : RColl E1 E2 K D1 D2) (k : K) : RColl E1 E2 K D1 D2 :=
  match klookup k s.keyIndex with
  | none => s
  | some id => rErase cfg s id

/-- Source find_by_key(k): an explicit present/absent result. -/
def find_by_key (s : RColl E1 E2 K D1 D2) (k : K) : Option Nat :=
  klookup k s.keyIndex

/-- Source top_k(k): walk the ordered index from the largest element, pushing
ids while fewer than k were taken. -/
def top_k (s : RColl E1 E2 K D1 D2) (k : Nat) : List Nat :=
  s.ordered.reverse.take k

/-- Source bottom_k(k): walk from the smallest element. -/
def bottom_k (s : RColl E1 E2 K D1 D2) (k : Nat) : List Nat :=
  s.ordered.take k

/-- Public mutating operations of the keyed ordered collection. -/
inductive ROp (E1 E2 K : Type) where
  | push (e1 : E1) (e2 : E2) (key : K)
  | update (id : Nat) (e1 : E1) (e2 : E2)
  | erase (id : Nat)
  | eraseByKey (key : K)
deriving DecidableEq, Repr

def stepR [Add D1] [Add D2] (cfg : RCfg E1 E2 K D1 D2) (s : RColl E1 E2 K D1 D2) :
    ROp E1 E2 K → RColl E1 E2 K D1 D2
  | .push e1 e2 k => (rPush cfg s e1 e2 k).1
  | .update id e1 e2 => rUpdate cfg s id e1 e2
  | .erase id => rErase cfg s id
  | .eraseByKey k => rEraseByKey cfg s k

/-- Freshly constructed state. -/
def RColl.init {E1 E2 K D1 D2 : Type} [Zero D1] [Zero D2] : RColl E1 E2 K D1 D2 :=
  ⟨[], [], [], 0, 0, 1⟩

def runR [AddMonoid D1] [AddMonoid D2] (cfg : RCfg E1 E2 K D1 D2)
    (ops : List (ROp E1 E2 K)) : RColl E1 E2 K D1 D2 :=
  ops.foldl (stepR cfg) RColl.init

/-- C6: erase(id) on a non-live id and erase_by_key(k) on an absent key
return normally and leave the entire collection state — element map, key
index, both Totals, and the ordered index — unchanged, and find_by_key
on an absent key returns the explicit absent result rather than
raising. -/
theorem c6_absent_erase_noop_and_absent_find [AddMonoid D1] [AddMonoid D2]
    (cfg : RCfg E1 E2 K D1 D2) (s : RColl E1 E2 K D1 D2) (id : Nat) (k : K)
    (hid : alookup id s.elems = none) (hk : klookup k s.keyIndex = none) :
    rErase cfg s id = s ∧ rEraseByKey cfg s k = s ∧ find_by_key s k = none := by
  refine ⟨?_, ?_, ?_⟩
  · unfold rErase
    rw [hid]
  · unfold rEraseByKey
    rw [hk]
  · unfold find_by_key
    exact hk

/-- The source's DefaultCompare: lexicographic on (elem1, elem2). -/
def lexCmp (a1 : ℤ) (a2 : ℤ) (b1 : ℤ) (b2 : ℤ) : Bool :=
  if a1 < b1 then true
  else if b1 < a1 then false
  else decide (a2 < b2)

/-- A concrete keyed configuration over integer fields and keys. -/
def keyedCfg : RCfg ℤ ℤ ℤ ℤ ℤ :=
  ⟨fun _ new2 _ last2 => new2 - last2,
   fun new1 new2 last1 last2 => new2 * new1 - last2 * last1,
   0, 0, lexCmp⟩

/-- Witness for C6: erasing id 99 and key 42 on a one-element collection
holding only id 1 under key 7. -/
theorem c6_absent_erase_noop_and_absent_find_witness :
    rErase keyedCfg (runR keyedCfg [ROp.push 1 10 7]) 99 = runR keyedCfg [ROp.push 1 10 7]
    ∧ rEraseByKey keyedCfg (runR keyedCfg [ROp.push 1 10 7]) 42
        = runR keyedCfg [ROp.push 1 10 7]
    ∧ find_by_key (runR keyedCfg [ROp.push 1 10 7]) 42 = none :=
  c6_absent_erase_noop_and_absent_find keyedCfg (runR keyedCfg [ROp.push 1 10 7]) 99 42
    (by decide) (by decide)

/-- C10: with a live element (id 1) under key 7, inserting a second
element with the same key leaves find_by_key(7) = id 1 (emplace keeps
the earlier mapping); erasing the second element by id then removes the
key-index entry for 7 entirely, so find_by_key(7) becomes absent even
though id 1 is still live. -/
theorem c10_duplicate_key_erase_drops_mapping :
    find_by_key (runR keyedCfg [ROp.push 1 10 7, ROp.push 2 20 7]) 7 = some 1
    ∧ find_by_key (runR keyedCfg [ROp.push 1 10 7, ROp.push 2 20 7, ROp.erase 2]) 7 = none
    ∧ alookup 1 (runR keyedCfg [ROp.push 1 10 7, ROp.push 2 20 7, ROp.erase 2]).elems
        = some ⟨1, 10, 7⟩ := by
  decide

/-!
### The comparator contract and the derived order on ids

Spec 4.4: the user comparator must be a strict weak ordering over
(field1, field2) pairs; ties are broken by id, yielding a strict total
order over ids.
-/

/-- Asymmetry of the user comparator. -/
def CmpAsymm (cmp : E1 → E2 → E1 → E2 → Bool) : Prop :=
  ∀ a1 a2 b1 b2, cmp a1 a2 b1 b2 = true → cmp b1 b2 a1 a2 = false

/-- Transitivity of the user comparator. -/
def CmpTrans (cmp : E1 → E2 → E1 → E2 → Bool) : Prop :=
  ∀ a1 a2 b1 b2 c1 c2, cmp a1 a2 b1 b2 = true → cmp b1 b2 c1 c2 = true →
    cmp a1 a2 c1 c2 = true

/-- Transitivity of comparator-equivalence (incomparability), the third
strict-weak-ordering requirement. -/
def CmpEquivTrans (cmp : E1 → E2 → E1 → E2 → Bool) : Prop :=
  ∀ a1 a2 b1 b2 c1 c2,
    cmp a1 a2 b1 b2 = false → cmp b1 b2 a1 a2 = false →
    cmp b1 b2 c1 c2 = false → cmp c1 c2 b1 b2 = false →
    cmp a1 a2 c1 c2 = false

/-- The comparator contract bundled. -/
structure SWO (cmp : E1 → E2 → E1 → E2 → Bool) : Prop where
  asymm : CmpAsymm cmp
  transit : CmpTrans cmp
  equivTrans : CmpEquivTrans cmp

/-- The comparator applied to two records' snapshots. -/
def cmpR (cmp : E1 → E2 → E1 → E2 → Bool) (A B : KElemRec E1 E2 K) : Bool :=
  cmp A.last1 A.last2 B.last1 B.last2

theorem SWO.cmpR_asymm {cmp : E1 → E2 → E1 → E2 → Bool} (h : SWO cmp)
    {A B : KElemRec E1 E2 K} (hab : cmpR cmp A B = true) : cmpR cmp B A = false :=
  h.asymm _ _ _ _ hab

theorem SWO.cmpR_transit {cmp : E1 → E2 → E1 → E2 → Bool} (h : SWO cmp)
    {A B C : KElemRec E1 E2 K} (hab : cmpR cmp A B = true) (hbc : cmpR cmp B C = true) :
    cmpR cmp A C = true :=
  h.transit _ _ _ _ _ _ hab hbc

theorem SWO.cmpR_equivTrans {cmp : E1 → E2 → E1 → E2 → Bool} (h : SWO cmp)
    {A B C : KElemRec E1 E2 K} (h1 : cmpR cmp A B = false) (h2 : cmpR cmp B A = false)
    (h3 : cmpR cmp B C = false) (h4 : cmpR cmp C B = false) : cmpR cmp A C = false :=
  h.equivTrans _ _ _ _ _ _ h1 h2 h3 h4

theorem SWO.cmpR_irrefl {cmp : E1 → E2 → E1 → E2 → Bool} (h : SWO cmp)
    (A : KElemRec E1 E2 K) : cmpR cmp A A = false := by
  cases hc : cmpR cmp A A with
  | false => rfl
  | true => exact absurd (h.cmpR_asymm hc) (by simp [hc])

/-- Comparator-equivalent records compare identically against every
other record (as left argument). -/
theorem SWO.cmpR_congr_left {cmp : E1 → E2 → E1 → E2 → Bool} (h : SWO cmp)
    {A A' : KElemRec E1 E2 K} (h1 : cmpR cmp A A' = false) (h2 : cmpR cmp A' A = false)
    (B : KElemRec E1 E2 K) : cmpR cmp A B = cmpR cmp A' B := by
  cases hab : cmpR cmp A B with
  | true =>
    cases hab' : cmpR cmp A' B with
    | true => rfl
    | false =>
      cases hba' : cmpR cmp B A' with
      | true => exact absurd (h.cmpR_transit hab hba') (by simp [h1])
      | false => exact absurd (h.cmpR_equivTrans h1 h2 hab' hba') (by simp [hab])
  | false =>
    cases hab' : cmpR cmp A' B with
    | false => rfl
    | true =>
      cases hba : cmpR cmp B A with
      | true => exact absurd (h.cmpR_transit hab' hba) (by simp [h2])
      | false => exact absurd (h.cmpR_equivTrans h2 h1 hab hba) (by simp [hab'])

/-- Comparator-equivalent records compare identically against every
other record (as right argument). -/
theorem SWO.cmpR_congr_right {cmp : E1 → E2 → E1 → E2 → Bool} (h : SWO cmp)
    {A A' : KElemRec E1 E2 K} (h1 : cmpR cmp A A' = false) (h2 : cmpR cmp A' A = false)
    (B : KElemRec E1 E2 K) : cmpR cmp B A = cmpR cmp B A' := by
  cases hba : cmpR cmp B A with
  | true =>
    cases hba' : cmpR cmp B A' with
    | true => rfl
    | false =>
      cases hab' : cmpR cmp A' B with
      | true => exact absurd (h.cmpR_transit hab' hba) (by simp [h2])
      | false => exact absurd (h.cmpR_equivTrans hba' hab' h2 h1) (by simp [hba])
  | false =>
    cases hba' : cmpR cmp B A' with
    | false => rfl
    | true =>
      cases hab : cmpR cmp A B with
      | true => exact absurd (h.cmpR_transit hab hba') (by simp [h1])
      | false => exact absurd (h.cmpR_equivTrans hba hab h1 h2) (by simp [hba'])

/-- A strict total order on ids, presented as a boolean relation. -/
structure IsSTO (lt : Nat → Nat → Bool) : Prop where
  irrefl : ∀ a, lt a a = false
  asymm : ∀ a b, lt a b = true → lt b a = false
  transit : ∀ a b c, lt a b = true → lt b c = true → lt a c = true
  total : ∀ a b, a ≠ b → lt a b = true ∨ lt b a = true

theorem idLt_true_iff [Inhabited E1] [Inhabited E2] [Inhabited K]
    (cmp : E1 → E2 → E1 → E2 → Bool) (elems : List (Nat × KElemRec E1 E2 K))
    (a b : Nat) :
    idLt cmp elems a b = true ↔
      a ≠ b ∧ (cmpR cmp (snap elems a) (snap elems b) = true
        ∨ (cmpR cmp (snap elems a) (snap elems b) = false
            ∧ cmpR cmp (snap elems b) (snap elems a) = false ∧ a < b)) := by
  unfold idLt cmpR
  by_cases hab : a = b
  · simp [hab]
  · simp only [if_neg hab]
    by_cases h1 : cmp (snap elems a).last1 (snap elems a).last2
        (snap elems b).last1 (snap elems b).last2 = true
    · simp [h1, hab]
    · rw [Bool.not_eq_true] at h1
      by_cases h2 : cmp (snap elems b).last1 (snap elems b).last2
          (snap elems a).last1 (snap elems a).last2 = true
      · simp [h1, h2, hab]
      · rw [Bool.not_eq_true] at h2
        simp [h1, h2, hab]

theorem idLt_isSTO [Inhabited E1] [Inhabited E2] [Inhabited K]
    {cmp : E1 → E2 → E1 → E2 → Bool} (h : SWO cmp)
    (elems : List (Nat × KElemRec E1 E2 K)) : IsSTO (idLt cmp elems) := by
  refine ⟨?_, ?_, ?_, ?_⟩
  · intro a
    simp [idLt]
  · intro a b hab
    rw [idLt_true_iff] at hab
    obtain ⟨hne, hab⟩ := hab
    rw [Bool.eq_false_iff]
    intro hba
    rw [idLt_true_iff] at hba
    obtain ⟨-, hba⟩ := hba
    rcases hab with hab | ⟨he1, he2, hlt⟩
    · rcases hba with hba | ⟨he1, he2, -⟩
      · exact absurd (h.cmpR_asymm hab) (by simp [hba])
      · exact absurd hab (by simp [he2])
    · rcases hba with hba | ⟨-, -, hlt2⟩
      · exact absurd hba (by simp [he2])
      · omega
  · intro a b c hab hbc
    rw [idLt_true_iff] at hab hbc ⊢
    obtain ⟨hneab, hab⟩ := hab
    obtain ⟨hnebc, hbc⟩ := hbc
    rcases hab with hab | ⟨heab1, heab2, hltab⟩
    · rcases hbc with hbc | ⟨hebc1, hebc2, hltbc⟩
      · have hac : cmpR cmp (snap elems a) (snap elems c) = true := h.cmpR_transit hab hbc
        refine ⟨?_, Or.inl hac⟩
        intro he
        subst he
        exact absurd hbc (by simp [h.cmpR_asymm hab])
      · have hac : cmpR cmp (snap elems a) (snap elems c) = true := by
          cases hac : cmpR cmp (snap elems a) (snap elems c) with
          | true => rfl
          | false =>
            cases hca : cmpR cmp (snap elems c) (snap elems a) with
            | true => exact absurd (h.cmpR_transit hca hab) (by simp [hebc2])
            | false => exact absurd (h.cmpR_equivTrans hac hca hebc2 hebc1) (by simp [hab])
        refine ⟨?_, Or.inl hac⟩
        intro he
        subst he
        exact absurd hab (by simp [hebc2])
    · rcases hbc with hbc | ⟨hebc1, hebc2, hltbc⟩
      · have hac : cmpR cmp (snap elems a) (snap elems c) = true := by
          cases hac : cmpR cmp (snap elems a) (snap elems c) with
          | true => rfl
          | false =>
            cases hca : cmpR cmp (snap elems c) (snap elems a) with
            | true => exact absurd (h.cmpR_transit hbc hca) (by simp [heab2])
            | false => exact absurd (h.cmpR_equivTrans heab2 heab1 hac hca) (by simp [hbc])
        refine ⟨?_, Or.inl hac⟩
        intro he
        subst he
        exact absurd hbc (by simp [heab2])
      · refine ⟨by omega, Or.inr ⟨h.cmpR_equivTrans heab1 heab2 hebc1 hebc2,
          h.cmpR_equivTrans hebc2 hebc1 heab2 heab1, by omega⟩⟩
  · intro a b hne
    rw [idLt_true_iff, idLt_true_iff]
    cases h1 : cmpR cmp (snap elems a) (snap elems b) with
    | true => exact Or.inl ⟨hne, Or.inl rfl⟩
    | false =>
      cases h2 : cmpR cmp (snap elems b) (snap elems a) with
      | true => exact Or.inr ⟨hne.symm, Or.inl rfl⟩
      | false =>
        rcases Nat.lt_or_ge a b with hlt | hge
        · exact Or.inl ⟨hne, Or.inr ⟨rfl, rfl, hlt⟩⟩
        · exact Or.inr ⟨hne.symm, Or.inr ⟨rfl, rfl, by omega⟩⟩

/-! ### Ordered-sequence lemmas -/

theorem mem_insertOrdered (lt : Nat → Nat → Bool) (id x : Nat) (l : List Nat) :
    x ∈ insertOrdered lt id l ↔ x = id ∨ x ∈ l := by
  induction l with
  | nil => simp [insertOrdered]
  | cons y ys ih =>
    unfold insertOrdered
    by_cases hc : lt id y = true
    · rw [if_pos hc]
      simp [List.mem_cons]
    · rw [if_neg hc]
      simp only [List.mem_cons, ih]
      tauto

theorem pairwise_insertOrdered {lt : Nat → Nat → Bool} (h : IsSTO lt) (id : Nat)
    {l : List Nat} (hs : l.Pairwise (fun a b => lt a b = true)) (hnm : id ∉ l) :
    (insertOrdered lt id l).Pairwise (fun a b => lt a b = true) := by
  induction l with
  | nil => simp [insertOrdered]
  | cons y ys ih =>
    rw [List.pairwise_cons] at hs
    obtain ⟨hy, hys⟩ := hs
    simp only [List.mem_cons] at hnm
    push_neg at hnm
    obtain ⟨hny, hnys⟩ := hnm
    unfold insertOrdered
    by_cases hc : lt id y = true
    · rw [if_pos hc, List.pairwise_cons]
      refine ⟨?_, List.pairwise_cons.mpr ⟨hy, hys⟩⟩
      intro z hz
      rcases List.mem_cons.mp hz with rfl | hz
      · exact hc
      · exact h.transit _ _ _ hc (hy z hz)
    · rw [if_neg hc, List.pairwise_cons]
      refine ⟨?_, ih hys hnys⟩
      intro z hz
      rcases (mem_insertOrdered lt id z ys).mp hz with rfl | hz
      · rcases h.total y z (fun he => hny he.symm) with h' | h'
        · exact h'
        · exact absurd h' hc
      · exact hy z hz

theorem nodup_insertOrdered (lt : Nat → Nat → Bool) (id : Nat) {l : List Nat}
    (hnd : l.Nodup) (hnm : id ∉ l) : (insertOrdered lt id l).Nodup := by
  induction l with
  | nil => simp [insertOrdered]
  | cons y ys ih =>
    rw [List.nodup_cons] at hnd
    obtain ⟨hy, hys⟩ := hnd
    simp only [List.mem_cons] at hnm
    push_neg at hnm
    obtain ⟨hny, hnys⟩ := hnm
    unfold insertOrdered
    by_cases hc : lt id y = true
    · rw [if_pos hc, List.nodup_cons, List.nodup_cons]
      refine ⟨?_, hy, hys⟩
      simp only [List.mem_cons]
      push_neg
      exact ⟨hny, hnys⟩
    · rw [if_neg hc, List.nodup_cons]
      refine ⟨?_, ih hys hnys⟩
      intro hmem
      rcases (mem_insertOrdered lt id y ys).mp hmem with rfl | hmem
      · exact hny rfl
      · exact hy hmem

/-- Under a strict total order, comparator-guided erase is exactly
removal of the probe id. -/
theorem eraseOrdered_eq_erase {lt : Nat → Nat → Bool} (h : IsSTO lt) (id : Nat)
    (l : List Nat) : eraseOrdered lt id l = l.erase id := by
  induction l with
  | nil => rfl
  | cons y ys ih =>
    unfold eraseOrdered
    by_cases hy : y = id
    · subst hy
      simp [h.irrefl, List.erase_cons_head]
    · have hcond : (!lt y id && !lt id y) = false := by
        rcases h.total y id hy with h' | h' <;> simp [h']
      simp only [hcond, Bool.false_eq_true, if_false]
      rw [ih, List.erase_cons_tail]
      simp [hy]

/-! ### Lookup stability under the three element-map mutations -/

theorem alookup_append_not_last {β : Type} {l : List (Nat × β)} {n i : Nat} {r : β}
    (hne : i ≠ n) : alookup i (l ++ [(n, r)]) = alookup i l := by
  induction l with
  | nil =>
    have hni : ¬ n = i := fun h => hne h.symm
    simp [alookup, hni]
  | cons p t ih =>
    obtain ⟨k, v⟩ := p
    by_cases hk : k = i
    · simp [alookup, hk]
    · simp [alookup, hk, ih]

theorem alookup_append_last {β : Type} {l : List (Nat × β)} {n : Nat} {r : β}
    (hnm : n ∉ l.map Prod.fst) : alookup n (l ++ [(n, r)]) = some r := by
  induction l with
  | nil => simp [alookup]
  | cons p t ih =>
    obtain ⟨k, v⟩ := p
    simp only [List.map_cons, List.mem_cons] at hnm
    push_neg at hnm
    have hkn : ¬ k = n := fun h => hnm.1 h.symm
    simp [alookup, hkn, ih hnm.2]

theorem alookup_map_update_ne {β : Type} {l : List (Nat × β)} {id i : Nat} {r' : β}
    (hne : i ≠ id) :
    alookup i (l.map (fun p => if p.1 = id then (p.1, r') else p)) = alookup i l := by
  induction l with
  | nil => rfl
  | cons p t ih =>
    obtain ⟨k, v⟩ := p
    simp only [List.map_cons]
    by_cases hkid : k = id
    · rw [show (if (k, v).1 = id then ((k, v).1, r') else (k, v)) = (k, r') by
        simp [hkid]]
      have hki : ¬ k = i := fun h => hne (h ▸ hkid)
      simp [alookup, hki, ih]
    · rw [show (if (k, v).1 = id then ((k, v).1, r') else (k, v)) = (k, v) by
        simp [hkid]]
      by_cases hki : k = i
      · simp [alookup, hki]
      · simp [alookup, hki, ih]

theorem alookup_map_update_self {β : Type} {l : List (Nat × β)} {id : Nat} {r' : β}
    {r : β} (hl : alookup id l = some r) :
    alookup id (l.map (fun p => if p.1 = id then (p.1, r') else p)) = some r' := by
  induction l with
  | nil => simp [alookup] at hl
  | cons p t ih =>
    obtain ⟨k, v⟩ := p
    simp only [List.map_cons]
    by_cases hkid : k = id
    · rw [show (if (k, v).1 = id then ((k, v).1, r') else (k, v)) = (k, r') by
        simp [hkid]]
      simp [alookup, hkid]
    · rw [show (if (k, v).1 = id then ((k, v).1, r') else (k, v)) = (k, v) by
        simp [hkid]]
      simp only [alookup, if_neg hkid] at hl
      simp [alookup, hkid, ih hl]

theorem alookup_filter_ne {β : Type} {l : List (Nat × β)} {id i : Nat}
    (hne : i ≠ id) :
    alookup i (l.filter (fun p => p.1 != id)) = alookup i l := by
  induction l with
  | nil => rfl
  | cons p t ih =>
    obtain ⟨k, v⟩ := p
    by_cases hkid : k = id
    · rw [show List.filter (fun p => p.1 != id) ((k, v) :: t)
          = List.filter (fun p => p.1 != id) t by simp [List.filter_cons, hkid]]
      have hki : ¬ k = i := fun h => hne (h ▸ hkid)
      rw [ih]
      simp [alookup, hki]
    · rw [show List.filter (fun p => p.1 != id) ((k, v) :: t)
          = (k, v) :: List.filter (fun p => p.1 != id) t by simp [List.filter_cons, hkid]]
      by_cases hki : k = i
      · simp [alookup, hki]
      · simp [alookup, hki, ih]

/-! ### Congruence of the id order under snapshot-preserving changes -/

theorem idLt_congr {cmp : E1 → E2 → E1 → E2 → Bool}
    {elems elems2 : List (Nat × KElemRec E1 E2 K)} {a b : Nat}
    (ha : snap elems2 a = snap elems a) (hb : snap elems2 b = snap elems b) :
    idLt cmp elems2 a b = idLt cmp elems a b := by
  unfold idLt
  rw [ha, hb]

/-- When every id's snapshot is unchanged or replaced by a
comparator-equivalent one, the derived order on ids is unchanged. -/
theorem idLt_congr_equiv {cmp : E1 → E2 → E1 → E2 → Bool} (h : SWO cmp)
    {elems elems2 : List (Nat × KElemRec E1 E2 K)}
    (hx : ∀ x, snap elems2 x = snap elems x
      ∨ (cmpR cmp (snap elems2 x) (snap elems x) = false
          ∧ cmpR cmp (snap elems x) (snap elems2 x) = false))
    (a b : Nat) : idLt cmp elems2 a b = idLt cmp elems a b := by
  have key : ∀ x, cmpR cmp (snap elems2 x) (snap elems x) = false
      ∧ cmpR cmp (snap elems x) (snap elems2 x) = false := by
    intro x
    rcases hx x with he | he
    · rw [he]
      exact ⟨h.cmpR_irrefl _, h.cmpR_irrefl _⟩
    · exact he
  have hAB : cmpR cmp (snap elems2 a) (snap elems2 b)
      = cmpR cmp (snap elems a) (snap elems b) := by
    rw [h.cmpR_congr_left (key a).1 (key a).2 (snap elems2 b)]
    exact h.cmpR_congr_right (key b).1 (key b).2 (snap elems a)
  have hBA : cmpR cmp (snap elems2 b) (snap elems2 a)
      = cmpR cmp (snap elems b) (snap elems a) := by
    rw [h.cmpR_congr_left (key b).1 (key b).2 (snap elems2 a)]
    exact h.cmpR_congr_right (key a).1 (key a).2 (snap elems b)
  unfold cmpR at hAB hBA
  unfold idLt
  rw [hAB, hBA]

/-! ### The ordered-index invariant (claims C4, C5, C8) -/

/-- Invariant of the keyed ordered collection: live ids are distinct and
below `nextId_`, and the ordered index holds exactly the live ids,
without duplicates, strictly increasing in the derived id order (user
comparator on current snapshots, ties by ascending id). -/
structure OrdInv (cfg : RCfg E1 E2 K D1 D2) (s : RColl E1 E2 K D1 D2) : Prop where
  keysNodup : (s.elems.map Prod.fst).Nodup
  keysBound : ∀ i ∈ s.elems.map Prod.fst, i < s.nextId
  ordMem : ∀ i, i ∈ s.ordered ↔ i ∈ s.elems.map Prod.fst
  ordNodup : s.ordered.Nodup
  ordSorted : s.ordered.Pairwise (fun a b => idLt cfg.cmp s.elems a b = true)

theorem pairwise_idLt_congr {cmp : E1 → E2 → E1 → E2 → Bool}
    {elems elems2 : List (Nat × KElemRec E1 E2 K)} {l : List Nat}
    (hsnap : ∀ x ∈ l, snap elems2 x = snap elems x)
    (hp : l.Pairwise (fun a b => idLt cmp elems a b = true)) :
    l.Pairwise (fun a b => idLt cmp elems2 a b = true) := by
  refine hp.imp_of_mem ?_
  intro a b ha hb hab
  rw [idLt_congr (hsnap a ha) (hsnap b hb)]
  exact hab

theorem mem_keys_filter {β : Type} {l : List (Nat × β)} {id i : Nat} :
    i ∈ (l.filter (fun p => p.1 != id)).map Prod.fst ↔ i ∈ l.map Prod.fst ∧ i ≠ id := by
  simp only [List.mem_map, List.mem_filter, bne_iff_ne]
  constructor
  · rintro ⟨p, ⟨hp, hne⟩, rfl⟩
    exact ⟨⟨p, hp, rfl⟩, hne⟩
  · rintro ⟨⟨p, hp, rfl⟩, hne⟩
    exact ⟨p, ⟨hp, hne⟩, rfl⟩

theorem rPush_inv [Add D1] [Add D2] {cfg : RCfg E1 E2 K D1 D2}
    (hswo : SWO cfg.cmp) {s : RColl E1 E2 K D1 D2} (hs : OrdInv cfg s)
    (e1 : E1) (e2 : E2) (k : K) : OrdInv cfg (rPush cfg s e1 e2 k).1 := by
  have hfresh : s.nextId ∉ s.elems.map Prod.fst :=
    fun hmem => lt_irrefl _ (hs.keysBound _ hmem)
  have hfreshOrd : s.nextId ∉ s.ordered :=
    fun hmem => hfresh ((hs.ordMem _).mp hmem)
  have hsnap : ∀ x ∈ s.ordered,
      snap (s.elems ++ [(s.nextId, (⟨e1, e2, k⟩ : KElemRec E1 E2 K))]) x
        = snap s.elems x := by
    intro x hx
    have hxne : x ≠ s.nextId := fun he => hfreshOrd (he ▸ hx)
    unfold snap
    rw [alookup_append_not_last hxne]
  refine ⟨?_, ?_, ?_, ?_, ?_⟩
  · simpa [rPush, List.nodup_append, hfresh] using hs.keysNodup
  · intro i hi
    simp only [rPush, List.map_append, List.mem_append] at hi ⊢
    rcases hi with hi | hi
    · exact Nat.lt_succ_of_lt (hs.keysBound _ hi)
    · simp at hi
      simp [hi]
  · intro i
    simp only [rPush, mem_insertOrdered, List.map_append, List.mem_append,
      List.map_cons, List.map_nil, List.mem_singleton, hs.ordMem i]
    tauto
  · exact nodup_insertOrdered _ _ hs.ordNodup hfreshOrd
  · exact pairwise_insertOrdered (idLt_isSTO hswo _) _
      (pairwise_idLt_congr hsnap hs.ordSorted) hfreshOrd

theorem rErase_inv [Add D1] [Add D2] {cfg : RCfg E1 E2 K D1 D2}
    (hswo : SWO cfg.cmp) {s : RColl E1 E2 K D1 D2} (hs : OrdInv cfg s)
    (id : Nat) : OrdInv cfg (rErase cfg s id) := by
  cases halook : alookup id s.elems with
  | none => simpa [rErase, halook] using hs
  | some r =>
    have herase : eraseOrdered (idLt cfg.cmp s.elems) id s.ordered = s.ordered.erase id :=
      eraseOrdered_eq_erase (idLt_isSTO hswo s.elems) id s.ordered
    have hsnap : ∀ x ∈ s.ordered.erase id,
        snap (s.elems.filter (fun p => p.1 != id)) x = snap s.elems x := by
      intro x hx
      have hxne : x ≠ id := (hs.ordNodup.mem_erase_iff.mp hx).1
      unfold snap
      rw [alookup_filter_ne hxne]
    refine ⟨?_, ?_, ?_, ?_, ?_⟩
    · simp only [rErase, halook]
      exact ((List.filter_sublist _).map Prod.fst).nodup hs.keysNodup
    · intro i hi
      simp only [rErase, halook] at hi ⊢
      rw [mem_keys_filter] at hi
      exact hs.keysBound _ hi.1
    · intro i
      simp only [rErase, halook, herase, mem_keys_filter,
        hs.ordNodup.mem_erase_iff, hs.ordMem i]
      tauto
    · simp only [rErase, halook, herase]
      exact hs.ordNodup.erase id
    · simp only [rErase, halook, herase]
      exact pairwise_idLt_congr hsnap
        (hs.ordSorted.sublist (List.erase_sublist _ _))

theorem rUpdate_inv [Add D1] [Add D2] {cfg : RCfg E1 E2 K D1 D2}
    (hswo : SWO cfg.cmp) {s : RColl E1 E2 K D1 D2} (hs : OrdInv cfg s)
    (id : Nat) (e1 : E1) (e2 : E2) : OrdInv cfg (rUpdate cfg s id e1 e2) := by
  cases halook : alookup id s.elems with
  | none => simpa [rUpdate, halook] using hs
  | some r =>
    have hidKeys : id ∈ s.elems.map Prod.fst := alookup_mem_keys halook
    have hidOrd : id ∈ s.ordered := (hs.ordMem id).mpr hidKeys
    have hsnap_ne : ∀ x, x ≠ id →
        snap (s.elems.map (fun p =>
          if p.1 = id then (p.1, (⟨e1, e2, r.key⟩ : KElemRec E1 E2 K)) else p)) x
          = snap s.elems x := by
      intro x hx
      unfold snap
      rw [alookup_map_update_ne hx]
    have hsnap_id : snap (s.elems.map (fun p =>
        if p.1 = id then (p.1, (⟨e1, e2, r.key⟩ : KElemRec E1 E2 K)) else p)) id
        = ⟨e1, e2, r.key⟩ := by
      unfold snap
      rw [alookup_map_update_self halook]
      rfl
    have hsnap_old : snap s.elems id = r := by
      unfold snap
      rw [halook]
      rfl
    have hkeys2 : (s.elems.map (fun p =>
        if p.1 = id then (p.1, (⟨e1, e2, r.key⟩ : KElemRec E1 E2 K)) else p)).map Prod.fst
        = s.elems.map Prod.fst := keys_map_update s.elems id ⟨e1, e2, r.key⟩
    by_cases hequiv :
        (!cfg.cmp r.last1 r.last2 e1 e2 && !cfg.cmp e1 e2 r.last1 r.last2) = true
    · have hc1 : cfg.cmp r.last1 r.last2 e1 e2 = false := by
        revert hequiv
        cases cfg.cmp r.last1 r.last2 e1 e2 <;> simp
      have hc2 : cfg.cmp e1 e2 r.last1 r.last2 = false := by
        revert hequiv
        cases cfg.cmp e1 e2 r.last1 r.last2 <;> simp
      have hle : ∀ a b, idLt cfg.cmp (s.elems.map (fun p =>
          if p.1 = id then (p.1, (⟨e1, e2, r.key⟩ : KElemRec E1 E2 K)) else p)) a b
          = idLt cfg.cmp s.elems a b := by
        refine idLt_congr_equiv hswo ?_
        intro x
        by_cases hx : x = id
        · subst hx
          right
          rw [hsnap_id, hsnap_old]
          exact ⟨hc2, hc1⟩
        · exact Or.inl (hsnap_ne x hx)
      refine ⟨?_, ?_, ?_, ?_, ?_⟩
      · simp only [rUpdate, halook, if_pos hequiv]
        rw [hkeys2]
        exact hs.keysNodup
      · intro i hi
        simp only [rUpdate, halook, if_pos hequiv] at hi ⊢
        rw [hkeys2] at hi
        exact hs.keysBound _ hi
      · intro i
        simp only [rUpdate, halook, if_pos hequiv]
        rw [hkeys2]
        exact hs.ordMem i
      · simp only [rUpdate, halook, if_pos hequiv]
        exact hs.ordNodup
      · simp only [rUpdate, halook, if_pos hequiv]
        exact hs.ordSorted.imp (fun hab => by rw [hle]; exact hab)
    · have herase : eraseOrdered (idLt cfg.cmp s.elems) id s.ordered = s.ordered.erase id :=
        eraseOrdered_eq_erase (idLt_isSTO hswo s.elems) id s.ordered
      have hnm : id ∉ s.ordered.erase id := by
        intro hmem
        exact absurd (hs.ordNodup.mem_erase_iff.mp hmem).1 (by simp)
      have hp1 : (s.ordered.erase id).Pairwise (fun a b =>
          idLt cfg.cmp (s.elems.map (fun p =>
            if p.1 = id then (p.1, (⟨e1, e2, r.key⟩ : KElemRec E1 E2 K)) else p)) a b = true) := by
        refine pairwise_idLt_congr ?_ (hs.ordSorted.sublist (List.erase_sublist _ _))
        intro x hx
        exact hsnap_ne x (hs.ordNodup.mem_erase_iff.mp hx).1
      refine ⟨?_, ?_, ?_, ?_, ?_⟩
      · simp only [rUpdate, halook, if_neg hequiv]
        rw [hkeys2]
        exact hs.keysNodup
      · intro i hi
        simp only [rUpdate, halook, if_neg hequiv] at hi ⊢
        rw [hkeys2] at hi
        exact hs.keysBound _ hi
      · intro i
        simp only [rUpdate, halook, if_neg hequiv, mem_insertOrdered, herase,
          hs.ordNodup.mem_erase_iff]
        rw [hkeys2, ← hs.ordMem i]
        constructor
        · rintro (rfl | ⟨-, hmem⟩)
          · exact hidOrd
          · exact hmem
        · intro hmem
          by_cases hi : i = id
          · exact Or.inl hi
          · exact Or.inr ⟨hi, hmem⟩
      · simp only [rUpdate, halook, if_neg hequiv, herase]
        exact nodup_insertOrdered _ _ (hs.ordNodup.erase id) hnm
      · simp only [rUpdate, halook, if_neg hequiv, herase]
        exact pairwise_insertOrdered (idLt_isSTO hswo _) _ hp1 hnm

theorem rEraseByKey_inv [Add D1] [Add D2] {cfg : RCfg E1 E2 K D1 D2}
    (hswo : SWO cfg.cmp) {s : RColl E1 E2 K D1 D2} (hs : OrdInv cfg s)
    (k : K) : OrdInv cfg (rEraseByKey cfg s k) := by
  cases hk : klookup k s.keyIndex with
  | none => simpa [rEraseByKey, hk] using hs
  | some id =>
    simp only [rEraseByKey, hk]
    exact rErase_inv hswo hs id

theorem stepR_inv [Add D1] [Add D2] {cfg : RCfg E1 E2 K D1 D2}
    (hswo : SWO cfg.cmp) {s : RColl E1 E2 K D1 D2} (hs : OrdInv cfg s)
    (op : ROp E1 E2 K) : OrdInv cfg (stepR cfg s op) := by
  cases op with
  | push e1 e2 k => exact rPush_inv hswo hs e1 e2 k
  | update id e1 e2 => exact rUpdate_inv hswo hs id e1 e2
  | erase id => exact rErase_inv hswo hs id
  | eraseByKey k => exact rEraseByKey_inv hswo hs k

theorem runR_inv [AddMonoid D1] [AddMonoid D2] {cfg : RCfg E1 E2 K D1 D2}
    (hswo : SWO cfg.cmp) (ops : List (ROp E1 E2 K)) :
    OrdInv cfg (runR cfg ops) := by
  have step : ∀ (s : RColl E1 E2 K D1 D2), OrdInv cfg s →
      OrdInv cfg (ops.foldl (stepR cfg) s) := by
    induction ops with
    | nil => exact fun s hs => hs
    | cons op t ih => exact fun s hs => ih _ (stepR_inv hswo hs op)
  exact step _ ⟨by simp [RColl.init], by simp [RColl.init], by simp [RColl.init],
    by simp [RColl.init], by simp [RColl.init]⟩

theorem lexCmp_swo : SWO lexCmp := by
  refine ⟨?_, ?_, ?_⟩
  · intro a1 a2 b1 b2 h
    simp only [lexCmp] at h ⊢
    split_ifs at h ⊢ <;> simp_all <;> omega
  · intro a1 a2 b1 b2 c1 c2 h1 h2
    simp only [lexCmp] at h1 h2 ⊢
    split_ifs at h1 h2 ⊢ <;> simp_all <;> omega
  · intro a1 a2 b1 b2 c1 c2 h1 h2 h3 h4
    simp only [lexCmp] at h1 h2 h3 h4 ⊢
    split_ifs at h1 h2 h3 h4 ⊢ <;> simp_all <;> omega

/-- C4: at every quiescent point (the state after any operation
sequence) with the ordered index enabled, the in-order traversal from
ordered_begin() to ordered_end() yields ids strictly increasing in the
derived order — non-decreasing under the user comparator with ties
broken by ascending id — and the traversed id set equals exactly the
live id set, provided the comparator meets its strict-weak-ordering
contract. -/
theorem c4_ordered_traversal_sorted_and_complete [AddMonoid D1] [AddMonoid D2]
    (cfg : RCfg E1 E2 K D1 D2) (hswo : SWO cfg.cmp) (ops : List (ROp E1 E2 K)) :
    (runR cfg ops).ordered.Pairwise
        (fun a b => idLt cfg.cmp (runR cfg ops).elems a b = true)
    ∧ (∀ i, i ∈ (runR cfg ops).ordered ↔ i ∈ (runR cfg ops).elems.map Prod.fst)
    ∧ (runR cfg ops).ordered.Nodup :=
  ⟨(runR_inv hswo ops).ordSorted, (runR_inv hswo ops).ordMem,
    (runR_inv hswo ops).ordNodup⟩

/-- A concrete operation sequence exercising insert, reorder-causing and
order-preserving updates, and both erase forms. -/
def c4ops : List (ROp ℤ ℤ ℤ) :=
  [ROp.push 3 1 0, ROp.push 1 2 5, ROp.update 1 (-2) 7, ROp.push 2 2 5,
   ROp.erase 2, ROp.eraseByKey 5, ROp.push 1 1 9]

/-- Witness for C4 at the lexicographic DefaultCompare. -/
theorem c4_ordered_traversal_sorted_and_complete_witness :
    (runR keyedCfg c4ops).ordered.Pairwise
        (fun a b => idLt keyedCfg.cmp (runR keyedCfg c4ops).elems a b = true)
    ∧ (∀ i, i ∈ (runR keyedCfg c4ops).ordered
        ↔ i ∈ (runR keyedCfg c4ops).elems.map Prod.fst)
    ∧ (runR keyedCfg c4ops).ordered.Nodup :=
  c4_ordered_traversal_sorted_and_complete keyedCfg lexCmp_swo c4ops

theorem ordered_length_eq {cfg : RCfg E1 E2 K D1 D2} {s : RColl E1 E2 K D1 D2}
    (hs : OrdInv cfg s) : s.ordered.length = s.elems.length := by
  have hperm : s.ordered.Perm (s.elems.map Prod.fst) :=
    (List.perm_ext_iff_of_nodup hs.ordNodup (hs.keysNodup)).mpr hs.ordMem
  rw [hperm.length_eq, List.length_map]

/-- C5: top_k(0) is empty; for k ≥ size(), top_k(k) returns all live ids
in descending derived order and bottom_k(k) all live ids in ascending
order; for k < size(), top_k(k) returns exactly the k greatest ids per
the derived comparator order. -/
theorem c5_top_k_bottom_k [AddMonoid D1] [AddMonoid D2]
    (cfg : RCfg E1 E2 K D1 D2) (hswo : SWO cfg.cmp) (ops : List (ROp E1 E2 K))
    (k : Nat) :
    top_k (runR cfg ops) 0 = []
    ∧ bottom_k (runR cfg ops) 0 = []
    ∧ ((runR cfg ops).elems.length ≤ k →
        ((∀ i, i ∈ top_k (runR cfg ops) k ↔ i ∈ (runR cfg ops).elems.map Prod.fst)
         ∧ (top_k (runR cfg ops) k).Pairwise
             (fun a b => idLt cfg.cmp (runR cfg ops).elems b a = true)
         ∧ (∀ i, i ∈ bottom_k (runR cfg ops) k ↔ i ∈ (runR cfg ops).elems.map Prod.fst)
         ∧ (bottom_k (runR cfg ops) k).Pairwise
             (fun a b => idLt cfg.cmp (runR cfg ops).elems a b = true)))
    ∧ (k < (runR cfg ops).elems.length →
        ((top_k (runR cfg ops) k).length = k
         ∧ (top_k (runR cfg ops) k).Pairwise
             (fun a b => idLt cfg.cmp (runR cfg ops).elems b a = true)
         ∧ (∀ i ∈ top_k (runR cfg ops) k, i ∈ (runR cfg ops).elems.map Prod.fst)
         ∧ ∀ a ∈ top_k (runR cfg ops) k, ∀ b, b ∈ (runR cfg ops).elems.map Prod.fst →
             b ∉ top_k (runR cfg ops) k →
             idLt cfg.cmp (runR cfg ops).elems b a = true)) := by
  have hinv := runR_inv hswo ops
  have hlen : (runR cfg ops).ordered.length = (runR cfg ops).elems.length :=
    ordered_length_eq hinv
  have hrev : (runR cfg ops).ordered.reverse.Pairwise
      (fun a b => idLt cfg.cmp (runR cfg ops).elems b a = true) :=
    List.pairwise_reverse.mpr hinv.ordSorted
  refine ⟨by simp [top_k], by simp [bottom_k], ?_, ?_⟩
  · intro hk
    have hall : top_k (runR cfg ops) k = (runR cfg ops).ordered.reverse := by
      unfold top_k
      exact List.take_of_length_le (by rw [List.length_reverse, hlen]; exact hk)
    have hallb : bottom_k (runR cfg ops) k = (runR cfg ops).ordered := by
      unfold bottom_k
      exact List.take_of_length_le (by rw [hlen]; exact hk)
    refine ⟨?_, ?_, ?_, ?_⟩
    · intro i
      rw [hall, List.mem_reverse]
      exact hinv.ordMem i
    · rw [hall]
      exact hrev
    · intro i
      rw [hallb]
      exact hinv.ordMem i
    · rw [hallb]
      exact hinv.ordSorted
  · intro hk
    have hlenr : (runR cfg ops).ordered.reverse.length = (runR cfg ops).elems.length := by
      rw [List.length_reverse, hlen]
    refine ⟨?_, ?_, ?_, ?_⟩
    · unfold top_k
      rw [List.length_take, hlenr]
      omega
    · exact hrev.sublist (List.take_sublist _ _)
    · intro i hi
      have : i ∈ (runR cfg ops).ordered.reverse :=
        (List.take_sublist _ _).mem hi
      rw [List.mem_reverse] at this
      exact (hinv.ordMem i).mp this
    · intro a ha b hbkeys hbnot
      have hbord : b ∈ (runR cfg ops).ordered.reverse := by
        rw [List.mem_reverse]
        exact (hinv.ordMem b).mpr hbkeys
      have hsplit := List.take_append_drop k (runR cfg ops).ordered.reverse
      have hbdrop : b ∈ (runR cfg ops).ordered.reverse.drop k := by
        rcases List.mem_append.mp (by rw [hsplit]; exact hbord) with hmem | hmem
        · exact absurd hmem hbnot
        · exact hmem
      have hpw : ((runR cfg ops).ordered.reverse.take k
          ++ (runR cfg ops).ordered.reverse.drop k).Pairwise
          (fun a b => idLt cfg.cmp (runR cfg ops).elems b a = true) := by
        rw [hsplit]
        exact hrev
      exact (List.pairwise_append.mp hpw).2.2 a ha b hbdrop

/-- Witness for C5 at the lexicographic DefaultCompare and k = 2. -/
theorem c5_top_k_bottom_k_witness :
    top_k (runR keyedCfg c4ops) 0 = []
    ∧ bottom_k (runR keyedCfg c4ops) 0 = []
    ∧ ((runR keyedCfg c4ops).elems.length ≤ 2 →
        ((∀ i, i ∈ top_k (runR keyedCfg c4ops) 2
            ↔ i ∈ (runR keyedCfg c4ops).elems.map Prod.fst)
         ∧ (top_k (runR keyedCfg c4ops) 2).Pairwise
             (fun a b => idLt keyedCfg.cmp (runR keyedCfg c4ops).elems b a = true)
         ∧ (∀ i, i ∈ bottom_k (runR keyedCfg c4ops) 2
            ↔ i ∈ (runR keyedCfg c4ops).elems.map Prod.fst)
         ∧ (bottom_k (runR keyedCfg c4ops) 2).Pairwise
             (fun a b => idLt keyedCfg.cmp (runR keyedCfg c4ops).elems a b = true)))
    ∧ (2 < (runR keyedCfg c4ops).elems.length →
        ((top_k (runR keyedCfg c4ops) 2).length = 2
         ∧ (top_k (runR keyedCfg c4ops) 2).Pairwise
             (fun a b => idLt keyedCfg.cmp (runR keyedCfg c4ops).elems b a = true)
         ∧ (∀ i ∈ top_k (runR keyedCfg c4ops) 2,
             i ∈ (runR keyedCfg c4ops).elems.map Prod.fst)
         ∧ ∀ a ∈ top_k (runR keyedCfg c4ops) 2, ∀ b,
             b ∈ (runR keyedCfg c4ops).elems.map Prod.fst →
             b ∉ top_k (runR keyedCfg c4ops) 2 →
             idLt keyedCfg.cmp (runR keyedCfg c4ops).elems b a = true)) :=
  c5_top_k_bottom_k keyedCfg lexCmp_swo c4ops 2

/-- C8: updating a live element to a comparator-equivalent snapshot
performs no ordered-index operation — the in-order sequence, hence the
element's relative order against all other elements, is unchanged — and
the index is still correctly sorted under the overwritten snapshot;
updating to a non-equivalent snapshot removes the id (the removal,
compared against the pre-update snapshots, deletes exactly the probe
id), overwrites the snapshot, and reinserts into sorted position; in
both cases the full ordered-index invariant is preserved. -/
theorem c8_equiv_update_skips_reindex [AddMonoid D1] [AddMonoid D2]
    (cfg : RCfg E1 E2 K D1 D2) (hswo : SWO cfg.cmp) (ops : List (ROp E1 E2 K))
    (id : Nat) (e1 : E1) (e2 : E2) (r : KElemRec E1 E2 K)
    (hlive : alookup id (runR cfg ops).elems = some r) :
    ((cfg.cmp r.last1 r.last2 e1 e2 = false ∧ cfg.cmp e1 e2 r.last1 r.last2 = false) →
        (rUpdate cfg (runR cfg ops) id e1 e2).ordered = (runR cfg ops).ordered)
    ∧ (¬(cfg.cmp r.last1 r.last2 e1 e2 = false ∧ cfg.cmp e1 e2 r.last1 r.last2 = false) →
        (rUpdate cfg (runR cfg ops) id e1 e2).ordered
          = insertOrdered (idLt cfg.cmp (rUpdate cfg (runR cfg ops) id e1 e2).elems)
              id ((runR cfg ops).ordered.erase id)
        ∧ eraseOrdered (idLt cfg.cmp (runR cfg ops).elems) id (runR cfg ops).ordered
          = (runR cfg ops).ordered.erase id)
    ∧ OrdInv cfg (rUpdate cfg (runR cfg ops) id e1 e2) := by
  refine ⟨?_, ?_, rUpdate_inv hswo (runR_inv hswo ops) id e1 e2⟩
  · intro ⟨hc1, hc2⟩
    have hb : (!cfg.cmp r.last1 r.last2 e1 e2 && !cfg.cmp e1 e2 r.last1 r.last2) = true := by
      rw [hc1, hc2]
      rfl
    simp only [rUpdate, hlive, if_pos hb]
  · intro hne
    have hb : ¬((!cfg.cmp r.last1 r.last2 e1 e2 && !cfg.cmp e1 e2 r.last1 r.last2) = true) := by
      intro hb
      refine hne ⟨?_, ?_⟩
      · revert hb
        cases cfg.cmp r.last1 r.last2 e1 e2 <;> simp
      · revert hb
        cases cfg.cmp e1 e2 r.last1 r.last2 <;> simp
    have herase : eraseOrdered (idLt cfg.cmp (runR cfg ops).elems) id (runR cfg ops).ordered
        = (runR cfg ops).ordered.erase id :=
      eraseOrdered_eq_erase (idLt_isSTO hswo _) id _
    refine ⟨?_, herase⟩
    simp only [rUpdate, hlive, if_neg hb, herase]

/-- Witness for C8: updating id 1 from snapshot (1, 10) at the
lexicographic comparator. -/
theorem c8_equiv_update_skips_reindex_witness :
    ((keyedCfg.cmp 1 10 1 30 = false ∧ keyedCfg.cmp 1 30 1 10 = false) →
        (rUpdate keyedCfg (runR keyedCfg [ROp.push 1 10 0, ROp.push 2 20 0]) 1 1 30).ordered
          = (runR keyedCfg [ROp.push 1 10 0, ROp.push 2 20 0]).ordered)
    ∧ (¬(keyedCfg.cmp 1 10 1 30 = false ∧ keyedCfg.cmp 1 30 1 10 = false) →
        (rUpdate keyedCfg (runR keyedCfg [ROp.push 1 10 0, ROp.push 2 20 0]) 1 1 30).ordered
          = insertOrdered (idLt keyedCfg.cmp
              (rUpdate keyedCfg (runR keyedCfg [ROp.push 1 10 0, ROp.push 2 20 0]) 1 1 30).elems)
              1 ((runR keyedCfg [ROp.push 1 10 0, ROp.push 2 20 0]).ordered.erase 1)
        ∧ eraseOrdered (idLt keyedCfg.cmp
            (runR keyedCfg [ROp.push 1 10 0, ROp.push 2 20 0]).elems) 1
            (runR keyedCfg [ROp.push 1 10 0, ROp.push 2 20 0]).ordered
          = (runR keyedCfg [ROp.push 1 10 0, ROp.push 2 20 0]).ordered.erase 1)
    ∧ OrdInv keyedCfg
        (rUpdate keyedCfg (runR keyedCfg [ROp.push 1 10 0, ROp.push 2 20 0]) 1 1 30) :=
  c8_equiv_update_skips_reindex keyedCfg lexCmp_swo
    [ROp.push 1 10 0, ROp.push 2 20 0] 1 1 30 ⟨1, 10, 0⟩ (by decide)

end RTFC
